import Mathlib

/-!
# Canvas animation controllers of `main.js`

A shallow embedding of the four animation controllers of `src/main.js`
(geometric Brownian motion, Ornstein-Uhlenbeck, neural-network forward pass,
efficient frontier) and of the frame-scheduling skeleton they share.

Conventions of the embedding.

* JavaScript numbers that carry data (prices, risks, returns, `curveT`) are
  elements of a linear ordered field `α`; every definition is computable and
  can be run at `α = ℚ`.  `Math.exp` is a parameter `expf : α → α`, which the
  theorems about it instantiate with `Real.exp`.
* Counters (`step`, `pause`, `layerTick`, `portIdx`, ...) are natural numbers.
* `Math.random()` and `randn()` are streams of samples (`Rand.unif`,
  `Rand.norm`); each controller state carries the number of samples it has
  consumed so far, so that a reseed is visible in the state.
* The drawing surface (`ctx`, `W`, `H`) is written by `init` and read by `draw`
  only; `draw` changes no controller variable, so it does not appear in the
  `tick` functions.  What `draw` reads from the data arrays is modelled by the
  `...Reads` functions.
-/

namespace MainJs

/-- Sample streams standing for the environment's randomness: `unif k` is the
value of the `k`-th call of `Math.random()` made by a controller and `norm k`
the value of its `k`-th call of `randn()`. -/
structure Rand (α : Type) where
  unif : Nat → α
  norm : Nat → α

/-! ## 3. Neural network forward pass (`nnAnimation`) -/

namespace NN

/-- Source constant `const LAYERS = [3, 4, 4, 2]`. -/
def LAYERS : List Nat := [3, 4, 4, 2]

/-- Source constant `const TICKS_PER = 28`. -/
def TICKS_PER : Nat := 28

/-- Source constant `const PAUSE_F = 40`. -/
def PAUSE_F : Nat := 40

/-- Variables of the `nnAnimation` closure; `used` counts the `Math.random()`
calls made so far. -/
structure State (α : Type) where
  activations : List (List α)
  layerTick : Nat
  tickInLayer : Nat
  pause : Nat
  used : Nat
deriving DecidableEq, Repr

/-- Loop of `randActivations`: for each entry `n` of the layer list an array of `n`
values of `Math.random()`, the samples being drawn in order from position `k`. -/
def randLayers {α : Type} (r : Rand α) : List Nat → Nat → List (List α)
  | [], _ => []
  | n :: ns, k => ((List.range n).map fun j => r.unif (k + j)) :: randLayers r ns (k + n)

/-- Function `randActivations()`. -/
def randActivations {α : Type} (r : Rand α) (k : Nat) : List (List α) :=
  randLayers r LAYERS k

/-- Function `init()`: new random activations, all three counters back to 0. -/
def init {α : Type} (r : Rand α) (s : State α) : State α :=
  { activations := randActivations r s.used
    layerTick := 0
    tickInLayer := 0
    pause := 0
    used := s.used + LAYERS.sum }

/-- Function `tick()` without the rescheduling line (see `Sched` for that). -/
def tick {α : Type} (r : Rand α) (s : State α) : State α :=
  if s.layerTick < LAYERS.length then
    let t := s.tickInLayer + 1
    if t ≥ TICKS_PER then
      { s with tickInLayer := 0, layerTick := s.layerTick + 1 }
    else
      { s with tickInLayer := t }
  else if s.pause < PAUSE_F then
    { s with pause := s.pause + 1 }
  else
    init r s

/-- States the NN controller can be in: whatever `init` leaves, and whatever a
tick makes of such a state. -/
inductive Reachable {α : Type} (r : Rand α) : State α → Prop
  | init (s : State α) : Reachable r (init r s)
  | tick (s : State α) : Reachable r s → Reachable r (tick r s)

end NN

/-! ## 1. Geometric Brownian motion (`gbmAnimation`) -/

namespace GBM

/-- Source constant `const PATHS = 8`. -/
def PATHS : Nat := 8

/-- Source constant `const STEPS = 120`. -/
def STEPS : Nat := 120

/-- Source constant `const MU = 0.0003`. -/
def MU {α : Type} [Field α] : α := 3 / 10000

/-- Source constant `const SIGMA = 0.018`. -/
def SIGMA {α : Type} [Field α] : α := 18 / 1000

/-- Source constant `const PAUSE_F = 30`. -/
def PAUSE_F : Nat := 30

/-- Variables of the `gbmAnimation` closure; `used` counts the `randn()` calls
made so far. -/
structure State (α : Type) where
  paths : List (List α)
  step : Nat
  pause : Nat
  used : Nat
deriving DecidableEq, Repr

/-- Inner loop of `buildPaths`, `for (let i = 1; i <= STEPS; i++)`, with `n`
iterations left: `arr.push(arr[i - 1] * Math.exp((MU - 0.5 * SIGMA * SIGMA) + SIGMA * randn()))`.
The `i`-th iteration consumes sample `k + (i - 1)`.  (`arr[i - 1]` is always a
stored element, see `gbm_pathLoop_length`; the default of `getD` is never used.) -/
def pathLoop {α : Type} [Field α] (expf : α → α) (r : Rand α) (k : Nat) :
    Nat → Nat → List α → List α
  | _, 0, arr => arr
  | i, n + 1, arr =>
    let prev := arr.getD (i - 1) 0
    pathLoop expf r k (i + 1) n
      (arr ++ [prev * expf ((MU - (1 / 2) * SIGMA * SIGMA) + SIGMA * r.norm (k + (i - 1)))])

/-- One path of `buildPaths`: `arr = [1.0]` followed by the inner loop. -/
def buildPath {α : Type} [Field α] (expf : α → α) (r : Rand α) (k : Nat) : List α :=
  pathLoop expf r k 1 STEPS [1]

/-- Function `buildPaths()`: `PATHS` paths, path `p` using the samples from
`k + p * STEPS` on. -/
def buildPaths {α : Type} [Field α] (expf : α → α) (r : Rand α) (k : Nat) : List (List α) :=
  (List.range PATHS).map fun p => buildPath expf r (k + p * STEPS)

/-- Function `init()`. -/
def init {α : Type} [Field α] (expf : α → α) (r : Rand α) (s : State α) : State α :=
  { paths := buildPaths expf r s.used
    step := 0
    pause := 0
    used := s.used + PATHS * STEPS }

/-- Function `tick()` without the rescheduling line. -/
def tick {α : Type} [Field α] (expf : α → α) (r : Rand α) (s : State α) : State α :=
  if s.step < STEPS then
    { s with step := s.step + 1 }
  else if s.pause < PAUSE_F then
    { s with pause := s.pause + 1 }
  else
    init expf r s

/-- States reachable from `init` by ticks. -/
inductive Reachable {α : Type} [Field α] (expf : α → α) (r : Rand α) : State α → Prop
  | init (s : State α) : Reachable expf r (init expf r s)
  | tick (s : State α) : Reachable expf r s → Reachable expf r (tick expf r s)

/-- One pass of the body of the min/max loop of `draw` (lines 96-97) for the
value read at `p[i]`; an index outside the array reads `undefined`, for which
both comparisons are false.  `⊤` is `Infinity`, `⊥` is `-Infinity`. -/
def scanStep {α : Type} [LinearOrder α] (p : List α) (acc : WithTop α × WithBot α) (i : Nat) :
    WithTop α × WithBot α :=
  match p[i]? with
  | none => acc
  | some v =>
    (if (v : WithTop α) < acc.1 then (v : WithTop α) else acc.1,
     if acc.2 < (v : WithBot α) then (v : WithBot α) else acc.2)

/-- Inner loop `for (let i = 0; i <= Math.min(step, STEPS); i++)` of `draw`. -/
def scanPath {α : Type} [LinearOrder α] (step : Nat) (acc : WithTop α × WithBot α)
    (p : List α) : WithTop α × WithBot α :=
  (List.range (min step STEPS + 1)).foldl (scanStep p) acc

/-- The `(minV, maxV)` that `draw` has computed when it leaves the loop over the paths
(lines 93-99), before the equal-range guard. -/
def revealedRange {α : Type} [LinearOrder α] (paths : List (List α)) (step : Nat) :
    WithTop α × WithBot α :=
  paths.foldl (scanPath step) (⊤, ⊥)

/-- Line 100, `if (maxV === minV) maxV = minV + 0.01`: the new `maxV`. -/
def guardMax {α : Type} [LinearOrderedField α] (minV : WithTop α) (maxV : WithBot α) :
    WithBot α :=
  match minV, maxV with
  | some lo, some hi => if hi = lo then ((lo + 1 / 100 : α) : WithBot α) else maxV
  | _, _ => maxV

/-- The divisor `maxV - minV` of `yScale`; `none` when an operand is infinite (the
difference is then not a finite number, in particular not 0). -/
def yScaleDivisor {α : Type} [LinearOrderedField α] (minV : WithTop α) (maxV : WithBot α) :
    Option α :=
  match minV, maxV with
  | some lo, some hi => some (hi - lo)
  | _, _ => none

/-- Indices `i` at which `draw` reads `p[i]` in the min/max loop (line 95). -/
def scanReads (step : Nat) : List Nat :=
  List.range (min step STEPS + 1)

/-- Indices `i` at which `draw` reads `path[i]` in the polyline loop (lines 107-114). -/
def lineReads (step : Nat) : List Nat :=
  List.range (min (step + 1) (STEPS + 1))

end GBM

/-! ## Shared helpers -/

/-- Model of `Math.min(...xs)` for a list of numbers.  JavaScript gives `Infinity` for the
empty list; the controllers only pass nonempty lists (`ou_revealed_ne_nil`,
`ef_genPortfolios_ne_nil`), and the model returns 0 there. -/
def jsMin {α : Type} [LinearOrderedField α] : List α → α
  | [] => 0
  | x :: xs => xs.foldl min x

/-- Model of `Math.max(...xs)` for a list of numbers (`-Infinity` for the empty list in
JavaScript, 0 in the model; never reached, as for `jsMin`). -/
def jsMax {α : Type} [LinearOrderedField α] : List α → α
  | [] => 0
  | x :: xs => xs.foldl max x

/-- Model of `Math.round(x)`: the nearest integer, halves rounded up. -/
def jsRound {α : Type} [LinearOrderedField α] [FloorRing α] (x : α) : Int :=
  ⌊x + 1 / 2⌋

/-! ## 2. Ornstein-Uhlenbeck mean reversion (`ouAnimation`) -/

namespace OU

/-- Source constant `const STEPS = 200`. -/
def STEPS : Nat := 200

/-- Source constant `const THETA = 0.08`. -/
def THETA {α : Type} [Field α] : α := 8 / 100

/-- Source constant `const SIGMA = 0.3`. -/
def SIGMA {α : Type} [Field α] : α := 3 / 10

/-- Source constant `const MU = 0`. -/
def MU {α : Type} [Field α] : α := 0

/-- Source constant `const DT = 1`. -/
def DT {α : Type} [Field α] : α := 1

/-- The value of `Math.sqrt(DT)` for `DT = 1`. -/
def sqrtDT {α : Type} [Field α] : α := 1

/-- Source constant `const PAUSE_F = 30`. -/
def PAUSE_F : Nat := 30

/-- Variables of the `ouAnimation` closure; `usedU` and `usedN` count the calls of
`Math.random()` and of `randn()` made by `buildSeries` so far. -/
structure State (α : Type) where
  series : List α
  step : Nat
  pause : Nat
  usedU : Nat
  usedN : Nat
deriving DecidableEq, Repr

/-- Loop of `buildSeries`, `for (let i = 1; i <= STEPS; i++)`, with `n` iterations left:
`series.push(prev + THETA * (MU - prev) * DT + SIGMA * Math.sqrt(DT) * randn())`
where `prev = series[i - 1]`. -/
def seriesLoop {α : Type} [Field α] (r : Rand α) (k : Nat) : Nat → Nat → List α → List α
  | _, 0, series => series
  | i, n + 1, series =>
    let prev := series.getD (i - 1) 0
    seriesLoop r k (i + 1) n
      (series ++ [prev + THETA * (MU - prev) * DT + SIGMA * sqrtDT * r.norm (k + (i - 1))])

/-- Function `buildSeries()`: `series = [0.5 * (Math.random() - 0.5) * 4]` followed by
the loop. -/
def buildSeries {α : Type} [Field α] (r : Rand α) (ku kn : Nat) : List α :=
  seriesLoop r kn 1 STEPS [(1 / 2) * (r.unif ku - 1 / 2) * 4]

/-- Function `init()`. -/
def init {α : Type} [Field α] (r : Rand α) (s : State α) : State α :=
  { series := buildSeries r s.usedU s.usedN
    step := 0
    pause := 0
    usedU := s.usedU + 1
    usedN := s.usedN + STEPS }

/-- Function `tick()` without the rescheduling line. -/
def tick {α : Type} [Field α] (r : Rand α) (s : State α) : State α :=
  if s.step < STEPS then
    { s with step := s.step + 1 }
  else if s.pause < PAUSE_F then
    { s with pause := s.pause + 1 }
  else
    init r s

/-- States reachable from `init` by ticks. -/
inductive Reachable {α : Type} [Field α] (r : Rand α) : State α → Prop
  | init (s : State α) : Reachable r (init r s)
  | tick (s : State α) : Reachable r s → Reachable r (tick r s)

/-- Local `const len = Math.min(step + 1, STEPS + 1)` of `draw`. -/
def revealedLen (step : Nat) : Nat :=
  min (step + 1) (STEPS + 1)

/-- Local `const sub = series.slice(0, len)` of `draw`. -/
def revealed {α : Type} (s : State α) : List α :=
  s.series.take (revealedLen s.step)

/-- Value `minV = Math.min(...sub) - 0.1` of `draw`. -/
def minV {α : Type} [LinearOrderedField α] (s : State α) : α :=
  jsMin (revealed s) - 1 / 10

/-- Value `maxV = Math.max(...sub) + 0.1` of `draw`. -/
def maxV {α : Type} [LinearOrderedField α] (s : State α) : α :=
  jsMax (revealed s) + 1 / 10

/-- The divisor `maxV - minV` of the vertical scaling in `draw` (lines 199, 215, 224). -/
def divisor {α : Type} [LinearOrderedField α] (s : State α) : α :=
  maxV s - minV s

/-- Indices `i` at which `draw` reads `series[i]`: those copied by `slice(0, len)` and
those of the two loops `for (let i = 0; i < len; i++)`. -/
def reads (step : Nat) : List Nat :=
  List.range (revealedLen step)

end OU

/-! ## 4. Efficient frontier (`efAnimation`) -/

namespace EF

/-- Source constant `const N_PORT = 300`. -/
def N_PORT : Nat := 300

/-- Source constant `const PORT_RATE = 4`. -/
def PORT_RATE : Nat := 4

/-- Source constant `const CURVE_RATE = 0.025`. -/
def CURVE_RATE {α : Type} [Field α] : α := 25 / 1000

/-- Source constant `const PAUSE_F = 90`. -/
def PAUSE_F : Nat := 90

/-- Source constant `const BUCKETS = 60` of `buildFrontier`. -/
def BUCKETS : Nat := 60

/-- A point `(risk, ret)`: an element of `portfolios` or of `frontier`. -/
structure Portfolio (α : Type) where
  risk : α
  ret : α
deriving DecidableEq, Repr

/-- The three values of `phase`. -/
inductive Phase where
  | scatter
  | curve
  | pause
deriving DecidableEq, Repr

/-- Body of the loop of `genPortfolios` for index `i`: `risk` from the first
`Math.random()`, `ret` from the second one and one `randn()`. -/
def genOne {α : Type} [Field α] (r : Rand α) (ku kn i : Nat) : Portfolio α :=
  let risk := 6 / 100 + r.unif (ku + 2 * i) * (19 / 100)
  let ret := 4 / 100 + r.unif (ku + 2 * i + 1) * (14 / 100) - (risk - 155 / 1000) * (3 / 10)
    + r.norm (kn + i) * (18 / 1000)
  { risk := risk, ret := ret }

/-- Function `genPortfolios()`: `N_PORT` portfolios, then
`portfolios.sort((a, b) => a.risk - b.risk)`
(a stable sort by ascending risk). -/
def genPortfolios {α : Type} [LinearOrderedField α] (r : Rand α) (ku kn : Nat) :
    List (Portfolio α) :=
  ((List.range N_PORT).map (genOne r ku kn)).insertionSort fun a b => a.risk ≤ b.risk

/-- Function `toXY`: the pixel of `(risk, ret)` on a surface of logical size `W` by `H`. -/
def toXY {α : Type} [Field α] (W H risk ret minR maxR minRet maxRet : α) : α × α :=
  let xPad := W * (1 / 10)
  let yPad := H * (1 / 10)
  (xPad + ((risk - minR) / (maxR - minR)) * (W - 2 * xPad),
   H - yPad - ((ret - minRet) / (maxRet - minRet)) * (H - 2 * yPad))

/-- Body of the inner loop of `buildFrontier` for the bucket risk `r`:
`if (Math.abs(p.risk - r) < step * 1.5 && p.ret > best) best = p.ret`;
`⊥` is `-Infinity`. -/
def bestStep {α : Type} [LinearOrderedField α] (r step : α) (best : WithBot α)
    (p : Portfolio α) : WithBot α :=
  if |p.risk - r| < step * (3 / 2) ∧ best < (p.ret : WithBot α) then (p.ret : WithBot α)
  else best

/-- Inner loop of `buildFrontier`, `for (const p of portfolios)`, from `best = -Infinity`. -/
def bestIn {α : Type} [LinearOrderedField α] (portfolios : List (Portfolio α)) (r step : α) :
    WithBot α :=
  portfolios.foldl (bestStep r step) ⊥

/-- Body of the bucket loop of `buildFrontier`: the point pushed for bucket `b`, if any
(`if (best > -Infinity) pts.push(...)`). -/
def bucketPoint {α : Type} [LinearOrderedField α] (portfolios : List (Portfolio α))
    (minR maxR : α) (b : Nat) : Option (Portfolio α) :=
  let step := (maxR - minR) / (BUCKETS : α)
  let r := minR + (b : α) * step
  match bestIn portfolios r step with
  | none => none
  | some best => some { risk := r, ret := best }

/-- Function `buildFrontier(minR, maxR, minRet, maxRet)` (the last two arguments are not
used by the function): the points pushed for `b = 0, ..., BUCKETS`, in this order. -/
def buildFrontier {α : Type} [LinearOrderedField α] (portfolios : List (Portfolio α))
    (minR maxR : α) : List (Portfolio α) :=
  (List.range (BUCKETS + 1)).filterMap (bucketPoint portfolios minR maxR)

/-- Variables of the `efAnimation` closure; `usedU` and `usedN` count the calls of
`Math.random()` and of `randn()` made by `genPortfolios` so far. -/
structure State (α : Type) where
  portfolios : List (Portfolio α)
  portIdx : Nat
  curveT : α
  phase : Phase
  pause : Nat
  minR : α
  maxR : α
  minRet : α
  maxRet : α
  frontier : List (Portfolio α)
  usedU : Nat
  usedN : Nat
deriving DecidableEq

/-- Function `init()`. -/
def init {α : Type} [LinearOrderedField α] (r : Rand α) (s : State α) : State α :=
  let portfolios := genPortfolios r s.usedU s.usedN
  let minR := jsMin (portfolios.map fun p => p.risk)
  let maxR := jsMax (portfolios.map fun p => p.risk)
  { portfolios := portfolios
    portIdx := 0
    curveT := 0
    phase := Phase.scatter
    pause := 0
    minR := minR
    maxR := maxR
    minRet := jsMin (portfolios.map fun p => p.ret)
    maxRet := jsMax (portfolios.map fun p => p.ret)
    frontier := buildFrontier portfolios minR maxR
    usedU := s.usedU + 2 * N_PORT
    usedN := s.usedN + N_PORT }

/-- Function `tick()` without the rescheduling line. -/
def tick {α : Type} [LinearOrderedField α] (r : Rand α) (s : State α) : State α :=
  match s.phase with
  | Phase.scatter =>
    let s1 := { s with portIdx := s.portIdx + PORT_RATE }
    if s1.portIdx ≥ N_PORT then { s1 with phase := Phase.curve } else s1
  | Phase.curve =>
    let s1 := { s with curveT := s.curveT + CURVE_RATE }
    if s1.curveT ≥ 1 then { s1 with phase := Phase.pause } else s1
  | Phase.pause =>
    let s1 := { s with pause := s.pause + 1 }
    if s1.pause ≥ PAUSE_F then init r s1 else s1

/-- States reachable from `init` by ticks. -/
inductive Reachable {α : Type} [LinearOrderedField α] (r : Rand α) : State α → Prop
  | init (s : State α) : Reachable r (init r s)
  | tick (s : State α) : Reachable r s → Reachable r (tick r s)

/-- The divisor `maxRet - minRet` of the vertical coordinate in `toXY`, as `draw` calls it. -/
def toXYDivisor {α : Type} [LinearOrderedField α] (s : State α) : α :=
  s.maxRet - s.minRet

/-- Local `const limit = Math.min(portIdx, portfolios.length)` of `draw`. -/
def limit {α : Type} (s : State α) : Nat :=
  min s.portIdx s.portfolios.length

/-- Indices `i` at which `draw` reads `portfolios[i]` (scatter loop). -/
def portReads {α : Type} (s : State α) : List Nat :=
  List.range (limit s)

/-- Local `const len = Math.round(frontier.length * Math.min(curveT, 1))` of `draw`. -/
def curveLen {α : Type} [LinearOrderedField α] [FloorRing α] (s : State α) : Int :=
  jsRound ((s.frontier.length : α) * min s.curveT 1)

/-- Indices `i` at which `draw` reads `frontier[i]`: none unless the phase is `curve` or
`pause` and `len >= 2`, else `0, ..., len - 1`. -/
def frontierReads {α : Type} [LinearOrderedField α] [FloorRing α] (s : State α) : List Nat :=
  if s.phase = Phase.curve ∨ s.phase = Phase.pause then
    if curveLen s ≥ 2 then List.range (curveLen s).toNat else []
  else []

end EF

/-! ## Frame scheduling shared by the four controllers -/

namespace Sched

/-- What the scheduling skeleton needs of a controller: its `init()` and the part of
its `tick()` before `raf = requestAnimationFrame(tick)`. -/
structure Controller (σ : Type) where
  init : σ → σ
  body : σ → σ

/-- A controller together with its view of the frame scheduler: `raf` is the closure
variable (`none` for `null`), `pending` the handles of this controller's callbacks that
are scheduled and have neither fired nor been cancelled, `last` the latest handle the
scheduler has issued to anyone. -/
structure State (σ : Type) where
  ctl : σ
  raf : Option Nat
  pending : List Nat
  last : Nat

/-- Statement `raf = requestAnimationFrame(tick)`: the scheduler issues a new handle,
larger than all earlier ones (hence nonzero); `gap` handles went to other callers in between. -/
def request {σ : Type} (s : State σ) (gap : Nat) : State σ :=
  let h := s.last + gap + 1
  { s with raf := some h, pending := s.pending ++ [h], last := h }

/-- Statement `if (raf) cancelAnimationFrame(raf)`: `null` and `0` are falsy. -/
def cancelIfSet {σ : Type} (s : State σ) : State σ :=
  match s.raf with
  | none => s
  | some h => if h = 0 then s else { s with pending := s.pending.filter fun x => x ≠ h }

/-- Start-up of a controller (lines 137-138): `init(); raf = requestAnimationFrame(tick)`,
with `raf = null` and nothing scheduled before. -/
def start {σ : Type} (c : Controller σ) (s0 : σ) (last gap : Nat) : State σ :=
  request { ctl := c.init s0, raf := none, pending := [], last := last } gap

/-- The scheduler runs the pending callback `h`: it leaves the pending set and `tick()`
runs, ending with `raf = requestAnimationFrame(tick)`. -/
def fire {σ : Type} (c : Controller σ) (s : State σ) (h gap : Nat) : State σ :=
  request { s with ctl := c.body s.ctl, pending := s.pending.filter fun x => x ≠ h } gap

/-- The exported reset function (`window._gbmReset` and its three siblings). -/
def reset {σ : Type} (c : Controller σ) (s : State σ) (gap : Nat) : State σ :=
  let s1 := cancelIfSet s
  request { s1 with ctl := c.init s1.ctl } gap

/-- States reachable from start-up by frame firings and calls of reset. -/
inductive Reachable {σ : Type} (c : Controller σ) : State σ → Prop
  | start (s0 : σ) (last gap : Nat) : Reachable c (start c s0 last gap)
  | fire (s : State σ) (h gap : Nat) : Reachable c s → h ∈ s.pending →
      Reachable c (fire c s h gap)
  | reset (s : State σ) (gap : Nat) : Reachable c s → Reachable c (reset c s gap)

/-- The GBM controller in the skeleton: `tick` of `GBM` is the body. -/
def gbm {α : Type} [Field α] (expf : α → α) (r : Rand α) : Controller (GBM.State α) :=
  { init := GBM.init expf r, body := GBM.tick expf r }

/-- The EF controller in the skeleton. -/
def ef {α : Type} [LinearOrderedField α] (r : Rand α) : Controller (EF.State α) :=
  { init := EF.init r, body := EF.tick r }

end Sched

/-! ## Concrete inputs used to evaluate the definitions -/

/-- The sample streams in which every `Math.random()` is `u` and every `randn()` is `z`. -/
def constRand (u z : ℚ) : Rand ℚ :=
  { unif := fun _ => u, norm := fun _ => z }

/-- The closure variables of `ouAnimation` as declared (lines 164-166), before `init()`. -/
def OU.declared : OU.State ℚ :=
  { series := [], step := 0, pause := 0, usedU := 0, usedN := 0 }

/-- The closure variables of `efAnimation` as declared (lines 395-399, 439), before
`init()`; the variables declared without a value are given 0 and the empty list. -/
def EF.declared : EF.State ℚ :=
  { portfolios := [], portIdx := 0, curveT := 0, phase := EF.Phase.scatter, pause := 0,
    minR := 0, maxR := 0, minRet := 0, maxRet := 0, frontier := [], usedU := 0, usedN := 0 }

/-- The closure variables of `gbmAnimation` as declared (lines 59-61), before `init()`. -/
def GBM.declared (α : Type) : GBM.State α :=
  { paths := [], step := 0, pause := 0, used := 0 }

/-- Sample streams in which `Math.random()` alternates between 0.9 (the draw used for
`risk`) and 0 (the draw used for `ret`), and `randn()` is 0. -/
def lowRetRand : Rand ℚ :=
  { unif := fun k => if k % 2 = 0 then 9 / 10 else 0, norm := fun _ => 0 }

/-- Sample streams in which the second call of `Math.random()` (the return draw of the
first portfolio) gives 0.5 and every other call 0, and `randn()` is 0. -/
def twoRetRand : Rand ℚ :=
  { unif := fun k => if k = 1 then 1 / 2 else 0, norm := fun _ => 0 }

/-! # Theorems -/

/-! ## NN controller: the phase machine -/

namespace NN

section
variable {α : Type}

theorem nn_init_fields (r : Rand α) (s : State α) :
    (init r s).layerTick = 0 ∧ (init r s).tickInLayer = 0 ∧ (init r s).pause = 0 :=
  ⟨rfl, rfl, rfl⟩

/-- Closed form of the state `n ≤ 152` ticks after `init`. -/
theorem nn_iterate_tick_closed (r : Rand α) (s : State α) (n : Nat) (hn : n ≤ 152) :
    (tick r)^[n] (init r s) =
      { init r s with
        layerTick := if n < 112 then n / 28 else 4
        tickInLayer := if n < 112 then n % 28 else 0
        pause := n - 112 } := by
  induction n with
  | zero => rfl
  | succ n ih =>
    rw [Function.iterate_succ_apply', ih (by omega)]
    by_cases h1 : n < 112
    · have hL : n / 28 < 4 := by omega
      by_cases h2 : n % 28 + 1 ≥ 28
      · have h3 : (n + 1) / 28 = n / 28 + 1 := by omega
        have h4 : (n + 1) % 28 = 0 := by omega
        by_cases h5 : n + 1 < 112
        · simp [tick, LAYERS, TICKS_PER, h1, hL, h2, h3, h4, h5]
          omega
        · have h6 : n / 28 + 1 = 4 := by omega
          simp [tick, LAYERS, TICKS_PER, h1, hL, h2, h5, h6]
          omega
      · have h3 : (n + 1) / 28 = n / 28 := by omega
        have h4 : (n + 1) % 28 = n % 28 + 1 := by omega
        have h5 : n + 1 < 112 := by omega
        simp [tick, LAYERS, TICKS_PER, h1, hL, h2, h3, h4, h5]
        omega
    · have h5 : ¬ n + 1 < 112 := by omega
      have h6 : n - 112 < 40 := by omega
      simp [tick, LAYERS, PAUSE_F, h1, h5, h6]
      omega

/-- C1. NN phase machine.  From the state left by `init` (all three counters 0):
for every layer `L < 4`, the state `28 * L + n` ticks later has `layerTick = L` and
`tickInLayer = n` for every `n ≤ 27`, and the state `28 * (L + 1)` ticks later has
`layerTick = L + 1` and `tickInLayer = 0`; after 112 ticks `layerTick = 4`, and each of
the next 40 ticks only increments `pause` (activations and sample counter unchanged,
`pause = k` after `k ≤ 40` of them); the tick after those 40 is a call of `init`, which
puts `layerTick`, `tickInLayer` and `pause` back to 0. -/
theorem nn_phase_machine (r : Rand α) (s : State α) :
    (∀ L n : Nat, L < LAYERS.length → n < TICKS_PER →
      (tick r)^[TICKS_PER * L + n] (init r s) =
        { init r s with layerTick := L, tickInLayer := n }) ∧
    (∀ L : Nat, L < LAYERS.length →
      ((tick r)^[TICKS_PER * (L + 1)] (init r s)).layerTick = L + 1 ∧
      ((tick r)^[TICKS_PER * (L + 1)] (init r s)).tickInLayer = 0) ∧
    (∀ k : Nat, k ≤ PAUSE_F →
      (tick r)^[TICKS_PER * LAYERS.length + k] (init r s) =
        { init r s with layerTick := LAYERS.length, pause := k }) ∧
    (tick r)^[TICKS_PER * LAYERS.length + PAUSE_F + 1] (init r s) =
        init r ((tick r)^[TICKS_PER * LAYERS.length + PAUSE_F] (init r s)) ∧
    ((tick r)^[TICKS_PER * LAYERS.length + PAUSE_F + 1] (init r s)).layerTick = 0 ∧
    ((tick r)^[TICKS_PER * LAYERS.length + PAUSE_F + 1] (init r s)).tickInLayer = 0 ∧
    ((tick r)^[TICKS_PER * LAYERS.length + PAUSE_F + 1] (init r s)).pause = 0 ∧
    ((tick r)^[TICKS_PER * LAYERS.length + PAUSE_F + 1] (init r s)).used =
      (init r s).used + LAYERS.sum := by
  have hlast : (tick r)^[TICKS_PER * LAYERS.length + PAUSE_F + 1] (init r s) =
      init r ((tick r)^[TICKS_PER * LAYERS.length + PAUSE_F] (init r s)) := by
    rw [Function.iterate_succ_apply', nn_iterate_tick_closed r s _ (by decide)]
    simp [tick, LAYERS, TICKS_PER, PAUSE_F]
  refine ⟨?_, ?_, ?_, hlast, ?_, ?_, ?_, ?_⟩
  · intro L n hL hn
    simp only [LAYERS, List.length_cons, List.length_nil, TICKS_PER] at hL hn ⊢
    rw [nn_iterate_tick_closed r s _ (by omega)]
    have h1 : 28 * L + n < 112 := by omega
    have h2 : (28 * L + n) / 28 = L := by omega
    have h3 : (28 * L + n) % 28 = n := by omega
    have h4 : 28 * L + n - 112 = 0 := by omega
    simp [h1, h2, h3, h4, init]
  · intro L hL
    simp only [LAYERS, List.length_cons, List.length_nil, TICKS_PER] at hL ⊢
    rw [nn_iterate_tick_closed r s _ (by omega)]
    by_cases h1 : 28 * (L + 1) < 112
    · have h2 : 28 * (L + 1) / 28 = L + 1 := by omega
      have h3 : 28 * (L + 1) % 28 = 0 := by omega
      simp [h1, h2, h3]
    · have h2 : L + 1 = 4 := by omega
      simp [h1, h2]
  · intro k hk
    simp only [LAYERS, List.length_cons, List.length_nil, TICKS_PER, PAUSE_F] at hk ⊢
    rw [nn_iterate_tick_closed r s _ (by omega)]
    have h1 : ¬ (28 * (0 + 1 + 1 + 1 + 1) + k < 112) := by omega
    have h4 : 28 * (0 + 1 + 1 + 1 + 1) + k - 112 = k := by omega
    simp [h1, h4, init]
  · rw [hlast]; rfl
  · rw [hlast]; rfl
  · rw [hlast]; rfl
  · rw [hlast, nn_iterate_tick_closed r s _ (by decide)]; rfl

end

end NN

/-! ## EF controller: the scatter phase -/

namespace EF

section
variable {α : Type} [LinearOrderedField α]

/-- Closed form of the state `n ≤ 75` ticks after `init`: only `portIdx` and, at the
75th tick, `phase` have changed. -/
theorem ef_tick_scatter (r : Rand α) (s : State α) (h : s.phase = Phase.scatter) :
    tick r s =
      if s.portIdx + 4 ≥ 300 then { s with portIdx := s.portIdx + 4, phase := Phase.curve }
      else { s with portIdx := s.portIdx + 4 } := by
  unfold tick
  rw [h]
  rfl

/-- Closed form of the first 75 ticks from any state in phase `scatter` with
`portIdx = 0`: only `portIdx` and, at the 75th tick, `phase` change. -/
theorem ef_iterate_tick_from (r : Rand α) (s0 : State α) (hp : s0.phase = Phase.scatter)
    (hi : s0.portIdx = 0) (n : Nat) (hn : n ≤ 75) :
    (tick r)^[n] s0 =
      { s0 with
        portIdx := 4 * n
        phase := if n < 75 then Phase.scatter else Phase.curve } := by
  obtain ⟨ps, idx, ct, ph, pa, a, b, c, d, fr, u, v⟩ := s0
  simp only at hp hi
  subst hp hi
  induction n with
  | zero => simp
  | succ n ih =>
    rw [Function.iterate_succ_apply', ih (by omega)]
    have h1 : n < 75 := by omega
    rw [ef_tick_scatter _ _ (by simp [h1])]
    by_cases h2 : n + 1 < 75
    · have h3 : ¬ (4 * n + 4 ≥ 300) := by omega
      simp only [if_pos h1, if_pos h2, if_neg h3, Nat.mul_succ]
    · have h3 : 4 * n + 4 ≥ 300 := by omega
      simp only [if_pos h1, if_neg h2, if_pos h3, Nat.mul_succ]

/-- Closed form of the state `n ≤ 75` ticks after `init`. -/
theorem ef_iterate_tick_scatter (r : Rand α) (s : State α) (n : Nat) (hn : n ≤ 75) :
    (tick r)^[n] (init r s) =
      { init r s with
        portIdx := 4 * n
        phase := if n < 75 then Phase.scatter else Phase.curve } :=
  ef_iterate_tick_from r (init r s) rfl rfl n hn

/-- C2. EF scatter phase.  From the state left by `init` (phase `scatter`, `portIdx`,
`curveT` and `pause` all 0), the phase after `n` ticks is still `scatter` for every
`n < 75`, and after exactly 75 ticks the phase is `curve`, `curveT` is still 0 and
`portIdx = 300`. -/
theorem ef_scatter_ends_after_75 (r : Rand α) (s : State α) :
    ((init r s).phase = Phase.scatter ∧ (init r s).portIdx = 0 ∧ (init r s).curveT = 0 ∧
      (init r s).pause = 0) ∧
    (∀ n : Nat, n < 75 → ((tick r)^[n] (init r s)).phase = Phase.scatter) ∧
    ((tick r)^[75] (init r s)).phase = Phase.curve ∧
    ((tick r)^[75] (init r s)).curveT = 0 ∧
    ((tick r)^[75] (init r s)).portIdx = 300 ∧
    (N_PORT + PORT_RATE - 1) / PORT_RATE = 75 := by
  refine ⟨⟨rfl, rfl, rfl, rfl⟩, ?_, ?_, ?_, ?_, by decide⟩
  · intro n hn
    rw [ef_iterate_tick_scatter r s n (by omega)]
    simp [hn]
  · rw [ef_iterate_tick_scatter r s 75 (by omega)]
    simp
  · rw [ef_iterate_tick_scatter r s 75 (by omega)]
    rfl
  · rw [ef_iterate_tick_scatter r s 75 (by omega)]

end

end EF

/-! ## OU controller: run, pause, reseed -/

namespace OU

section
variable {α : Type} [Field α]

theorem ou_seriesLoop_length (r : Rand α) (k : Nat) (n i : Nat) (l : List α) :
    (seriesLoop r k i n l).length = l.length + n := by
  induction n generalizing i l with
  | zero => rfl
  | succ n ih =>
    rw [seriesLoop, ih]
    simp
    omega

/-- The function `buildSeries` generates the whole series at once: `STEPS + 1 = 201` values. -/
theorem ou_buildSeries_length (r : Rand α) (ku kn : Nat) :
    (buildSeries r ku kn).length = STEPS + 1 := by
  rw [buildSeries, ou_seriesLoop_length]
  simp
  omega

/-- Closed form of the state `n ≤ 230` ticks after `init`. -/
theorem ou_iterate_tick_closed (r : Rand α) (s : State α) (n : Nat) (hn : n ≤ 230) :
    (tick r)^[n] (init r s) =
      { init r s with step := min n 200, pause := n - 200 } := by
  induction n with
  | zero => simp [init]
  | succ n ih =>
    rw [Function.iterate_succ_apply', ih (by omega)]
    by_cases h1 : n < 200
    · have h2 : min n 200 = n := by omega
      have h3 : min (n + 1) 200 = n + 1 := by omega
      have h4 : n - 200 = 0 := by omega
      have h5 : n + 1 - 200 = 0 := by omega
      simp [tick, STEPS, h1, h2, h3, h4, h5]
    · have h2 : min n 200 = 200 := by omega
      have h3 : min (n + 1) 200 = 200 := by omega
      have h4 : n - 200 < 30 := by omega
      have h5 : n + 1 - 200 = n - 200 + 1 := by omega
      simp [tick, STEPS, PAUSE_F, h2, h3, h4, h5]

/-- The 231st tick after `init` is a call of `init`. -/
theorem ou_tick_231 (r : Rand α) (s : State α) :
    (tick r)^[231] (init r s) = init r ((tick r)^[230] (init r s)) := by
  rw [Function.iterate_succ_apply', ou_iterate_tick_closed r s 230 (by omega)]
  simp [tick, STEPS, PAUSE_F]

theorem ou_init_series_length (r : Rand α) (s : State α) :
    (init r s).series.length = STEPS + 1 := by
  simp only [init]
  exact ou_buildSeries_length r _ _

/-- C3 (amended). OU controller.  From the state left by `init` (`step = 0`,
`pause = 0`): after 201 ticks the controller is paused, with `step = 200`, `pause = 1`
and the series and sample counters untouched, and it stays so (`pause = k`) after
`200 + k` ticks for `1 ≤ k ≤ 30`; the 231st tick is a call of `init`, after which
`step = 0`, `pause = 0`, one more uniform and 200 more normal samples are consumed, and
the series is again complete, with 201 values. -/
theorem ou_run_pause_reseed (r : Rand α) (s : State α) :
    ((init r s).step = 0 ∧ (init r s).pause = 0) ∧
    (tick r)^[201] (init r s) = { init r s with step := STEPS, pause := 1 } ∧
    (∀ k : Nat, 1 ≤ k → k ≤ PAUSE_F →
      (tick r)^[STEPS + k] (init r s) = { init r s with step := STEPS, pause := k }) ∧
    (tick r)^[231] (init r s) = init r ((tick r)^[230] (init r s)) ∧
    ((tick r)^[231] (init r s)).step = 0 ∧
    ((tick r)^[231] (init r s)).pause = 0 ∧
    ((tick r)^[231] (init r s)).usedU = (init r s).usedU + 1 ∧
    ((tick r)^[231] (init r s)).usedN = (init r s).usedN + STEPS ∧
    ((tick r)^[231] (init r s)).series.length = 201 := by
  refine ⟨⟨rfl, rfl⟩, ?_, ?_, ou_tick_231 r s, ?_, ?_, ?_, ?_, ?_⟩
  · rw [ou_iterate_tick_closed r s 201 (by omega)]
    simp [STEPS]
  · intro k h1 h2
    simp only [PAUSE_F, STEPS] at h2 ⊢
    rw [ou_iterate_tick_closed r s _ (by omega)]
    have h3 : min (200 + k) 200 = 200 := by omega
    have h4 : 200 + k - 200 = k := by omega
    rw [h3, h4]
  · rw [ou_tick_231]; rfl
  · rw [ou_tick_231]; rfl
  · rw [ou_tick_231, ou_iterate_tick_closed r s 230 (by omega)]
    simp only [init]
  · rw [ou_tick_231, ou_iterate_tick_closed r s 230 (by omega)]
    simp only [init]
  · rw [ou_tick_231, ou_init_series_length]
    decide

end

/-- C3, as stated, fails: with every sample equal to 0, the series right after the
reseed at tick 231 does not have length 1 (it has all its 201 values). -/
theorem ou_reseed_series_length_ne_one :
    ((tick (constRand 0 0))^[231] (init (constRand 0 0) declared)).series.length ≠ 1 := by
  rw [ou_tick_231, ou_init_series_length]
  decide

end OU

/-! ## GBM controller: the generated paths -/

namespace GBM

section
variable {α : Type} [LinearOrderedField α]

theorem gbm_pathLoop_length (expf : α → α) (r : Rand α) (k : Nat) (n i : Nat) (l : List α) :
    (pathLoop expf r k i n l).length = l.length + n := by
  induction n generalizing i l with
  | zero => rfl
  | succ n ih =>
    rw [pathLoop, ih]
    simp
    omega

/-- The loop never changes what is already stored. -/
theorem gbm_pathLoop_keeps (expf : α → α) (r : Rand α) (k : Nat) (n i : Nat) (l : List α)
    (m : Nat) (hm : m < l.length) :
    (pathLoop expf r k i n l)[m]? = l[m]? := by
  induction n generalizing i l with
  | zero => rfl
  | succ n ih =>
    rw [pathLoop, ih _ _ (by simp; omega)]
    exact List.getElem?_append_left hm

/-- Every value the loop pushes at an index `j` is the value at `j - 1` times the
exponential factor of the sample consumed there. -/
theorem gbm_pathLoop_step (expf : α → α) (r : Rand α) (k : Nat) (n i : Nat) (l : List α)
    (hl : l.length = i) (j : Nat) (h1 : i ≤ j) (h2 : j < i + n) :
    (pathLoop expf r k i n l)[j]? =
      some ((pathLoop expf r k i n l).getD (j - 1) 0 *
        expf ((MU - (1 / 2) * SIGMA * SIGMA) + SIGMA * r.norm (k + (j - 1)))) := by
  induction n generalizing i l with
  | zero => omega
  | succ n ih =>
    rw [pathLoop]
    by_cases hj : j = i
    · subst hj
      have hlen : j < (l ++ [l.getD (j - 1) 0 *
          expf ((MU - (1 / 2) * SIGMA * SIGMA) + SIGMA * r.norm (k + (j - 1)))]).length := by
        simp; omega
      rw [gbm_pathLoop_keeps _ _ _ _ _ _ _ hlen]
      rw [List.getElem?_append_right (by omega)]
      simp only [hl, Nat.sub_self, List.getElem?_cons_zero, Option.some.injEq]
      congr 1
      by_cases h0 : j = 0
      · subst h0
        have : l = [] := List.length_eq_zero.mp hl
        subst this
        simp only [List.getD_eq_getElem?_getD, Nat.zero_sub]
        rw [gbm_pathLoop_keeps _ _ _ _ _ _ _ (by simp)]
        simp
      · have hlt : j - 1 < l.length := by omega
        simp only [List.getD_eq_getElem?_getD]
        rw [gbm_pathLoop_keeps _ _ _ _ _ _ _ (by simp; omega)]
        rw [List.getElem?_append_left hlt]
    · exact ih (i + 1) _ (by simp; omega) (by omega) (by omega)

/-- Positivity is preserved by the loop when the exponential is positive. -/
theorem gbm_pathLoop_pos (expf : α → α) (hexp : ∀ x, 0 < expf x) (r : Rand α) (k : Nat)
    (n i : Nat) (l : List α) (hl : l.length = i) (hi : 1 ≤ i) (hpos : ∀ v ∈ l, 0 < v) :
    ∀ v ∈ pathLoop expf r k i n l, 0 < v := by
  induction n generalizing i l with
  | zero => exact hpos
  | succ n ih =>
    rw [pathLoop]
    apply ih (i + 1) _ (by simp; omega) (by omega)
    intro v hv
    rcases List.mem_append.mp hv with h | h
    · exact hpos v h
    · rw [List.mem_singleton] at h
      subst h
      apply mul_pos _ (hexp _)
      have hlt : i - 1 < l.length := by omega
      rw [List.getD_eq_getElem _ _ hlt]
      exact hpos _ (List.getElem_mem _)

theorem gbm_buildPath_length (expf : α → α) (r : Rand α) (k : Nat) :
    (buildPath expf r k).length = STEPS + 1 := by
  rw [buildPath, gbm_pathLoop_length]
  simp
  omega

theorem gbm_buildPaths_length (expf : α → α) (r : Rand α) (k : Nat) :
    (buildPaths expf r k).length = PATHS := by
  simp [buildPaths]

theorem gbm_buildPaths_getElem? (expf : α → α) (r : Rand α) (k j : Nat) (hj : j < PATHS) :
    (buildPaths expf r k)[j]? = some (buildPath expf r (k + j * STEPS)) := by
  simp [buildPaths, List.getElem?_range hj]

theorem gbm_mem_buildPaths (expf : α → α) (r : Rand α) (k : Nat) (p : List α)
    (hp : p ∈ buildPaths expf r k) : ∃ j, j < PATHS ∧ p = buildPath expf r (k + j * STEPS) := by
  simp only [buildPaths, List.mem_map, List.mem_range] at hp
  obtain ⟨j, hj, rfl⟩ := hp
  exact ⟨j, hj, rfl⟩

end

/-- C5. GBM path generation over the reals, with `Math.exp` the real exponential: for
every stream of normal samples (and every starting position `k` in it), `buildPaths`
generates 8 paths; the `j`-th one has exactly 121 values, its first value is 1, every
value is strictly positive, and for `1 ≤ i ≤ 120` its value at `i` is its value at
`i - 1` times `exp((MU - 0.5 * SIGMA^2) + SIGMA * z)`, `z` being the sample drawn for
that step. -/
theorem gbm_paths_positive (r : Rand ℝ) (k : Nat) :
    (buildPaths Real.exp r k).length = 8 ∧
    ∀ j : Nat, j < 8 → ∃ p : List ℝ,
      (buildPaths Real.exp r k)[j]? = some p ∧
      p.length = 121 ∧
      p[0]? = some 1 ∧
      (∀ v ∈ p, 0 < v) ∧
      ∀ i : Nat, 1 ≤ i → i ≤ 120 →
        p[i]? = some (p.getD (i - 1) 0 *
          Real.exp ((MU - (1 / 2) * SIGMA * SIGMA) + SIGMA * r.norm (k + j * STEPS + (i - 1)))) := by
  refine ⟨gbm_buildPaths_length _ _ _, ?_⟩
  intro j hj
  refine ⟨buildPath Real.exp r (k + j * STEPS), gbm_buildPaths_getElem? _ _ _ _ hj,
    gbm_buildPath_length _ _ _, ?_, ?_, ?_⟩
  · rw [buildPath, gbm_pathLoop_keeps _ _ _ _ _ _ _ (by simp)]
    rfl
  · exact gbm_pathLoop_pos Real.exp Real.exp_pos r _ _ 1 [1] rfl (le_refl 1)
      (by intro v hv; rw [List.mem_singleton] at hv; rw [hv]; exact one_pos)
  · intro i h1 h2
    exact gbm_pathLoop_step Real.exp r _ STEPS 1 [1] rfl i h1 (by simp only [STEPS]; omega)

/-! ## GBM controller: the range of the revealed prefixes -/

section
variable {α : Type} [LinearOrder α]

theorem gbm_scanStep_fst_le (p : List α) (acc : WithTop α × WithBot α) (i : Nat) :
    (scanStep p acc i).1 ≤ acc.1 := by
  unfold scanStep
  cases h : p[i]? with
  | none => exact le_refl _
  | some v =>
    simp only
    split
    · rename_i hlt; exact le_of_lt hlt
    · exact le_refl _

theorem gbm_scanStep_snd_ge (p : List α) (acc : WithTop α × WithBot α) (i : Nat) :
    acc.2 ≤ (scanStep p acc i).2 := by
  unfold scanStep
  cases h : p[i]? with
  | none => exact le_refl _
  | some v =>
    simp only
    split
    · rename_i hlt; exact le_of_lt hlt
    · exact le_refl _

theorem gbm_scanStep_fst_le_val (p : List α) (acc : WithTop α × WithBot α) (i : Nat) (v : α)
    (hv : p[i]? = some v) : (scanStep p acc i).1 ≤ (v : WithTop α) := by
  unfold scanStep
  rw [hv]
  simp only
  split
  · exact le_refl _
  · rename_i hlt; exact not_lt.mp hlt

theorem gbm_scanStep_snd_ge_val (p : List α) (acc : WithTop α × WithBot α) (i : Nat) (v : α)
    (hv : p[i]? = some v) : (v : WithBot α) ≤ (scanStep p acc i).2 := by
  unfold scanStep
  rw [hv]
  simp only
  split
  · exact le_refl _
  · rename_i hlt; exact not_lt.mp hlt

theorem gbm_scanStep_fst_cases (p : List α) (acc : WithTop α × WithBot α) (i : Nat) :
    (scanStep p acc i).1 = acc.1 ∨ ∃ v : α, p[i]? = some v ∧ (scanStep p acc i).1 = (v : WithTop α) := by
  unfold scanStep
  cases h : p[i]? with
  | none => exact Or.inl rfl
  | some v =>
    simp only
    split
    · exact Or.inr ⟨v, rfl, rfl⟩
    · exact Or.inl rfl

theorem gbm_scanStep_snd_cases (p : List α) (acc : WithTop α × WithBot α) (i : Nat) :
    (scanStep p acc i).2 = acc.2 ∨ ∃ v : α, p[i]? = some v ∧ (scanStep p acc i).2 = (v : WithBot α) := by
  unfold scanStep
  cases h : p[i]? with
  | none => exact Or.inl rfl
  | some v =>
    simp only
    split
    · exact Or.inr ⟨v, rfl, rfl⟩
    · exact Or.inl rfl

/-- The inner loop over any list of indices: the minimum only goes down, is below
every value read, and is the initial one or one of the values read. -/
theorem gbm_scan_fst (p : List α) (is : List Nat) (acc : WithTop α × WithBot α) :
    (is.foldl (scanStep p) acc).1 ≤ acc.1 ∧
    (∀ i ∈ is, ∀ v : α, p[i]? = some v → (is.foldl (scanStep p) acc).1 ≤ (v : WithTop α)) ∧
    ((is.foldl (scanStep p) acc).1 = acc.1 ∨
      ∃ i ∈ is, ∃ v : α, p[i]? = some v ∧ (is.foldl (scanStep p) acc).1 = (v : WithTop α)) := by
  induction is generalizing acc with
  | nil => simp
  | cons a is ih =>
    simp only [List.foldl_cons]
    obtain ⟨h1, h2, h3⟩ := ih (scanStep p acc a)
    refine ⟨le_trans h1 (gbm_scanStep_fst_le p acc a), ?_, ?_⟩
    · intro i hi v hv
      rcases List.mem_cons.mp hi with rfl | hi
      · exact le_trans h1 (gbm_scanStep_fst_le_val p acc i v hv)
      · exact h2 i hi v hv
    · rcases h3 with h3 | ⟨i, hi, v, hv, h3⟩
      · rcases gbm_scanStep_fst_cases p acc a with h4 | ⟨v, hv, h4⟩
        · exact Or.inl (h3.trans h4)
        · exact Or.inr ⟨a, List.mem_cons_self _ _, v, hv, h3.trans h4⟩
      · exact Or.inr ⟨i, List.mem_cons_of_mem _ hi, v, hv, h3⟩

/-- The inner loop over any list of indices: the maximum only goes up, is above every
value read, and is the initial one or one of the values read. -/
theorem gbm_scan_snd (p : List α) (is : List Nat) (acc : WithTop α × WithBot α) :
    acc.2 ≤ (is.foldl (scanStep p) acc).2 ∧
    (∀ i ∈ is, ∀ v : α, p[i]? = some v → (v : WithBot α) ≤ (is.foldl (scanStep p) acc).2) ∧
    ((is.foldl (scanStep p) acc).2 = acc.2 ∨
      ∃ i ∈ is, ∃ v : α, p[i]? = some v ∧ (is.foldl (scanStep p) acc).2 = (v : WithBot α)) := by
  induction is generalizing acc with
  | nil => simp
  | cons a is ih =>
    simp only [List.foldl_cons]
    obtain ⟨h1, h2, h3⟩ := ih (scanStep p acc a)
    refine ⟨le_trans (gbm_scanStep_snd_ge p acc a) h1, ?_, ?_⟩
    · intro i hi v hv
      rcases List.mem_cons.mp hi with rfl | hi
      · exact le_trans (gbm_scanStep_snd_ge_val p acc i v hv) h1
      · exact h2 i hi v hv
    · rcases h3 with h3 | ⟨i, hi, v, hv, h3⟩
      · rcases gbm_scanStep_snd_cases p acc a with h4 | ⟨v, hv, h4⟩
        · exact Or.inl (h3.trans h4)
        · exact Or.inr ⟨a, List.mem_cons_self _ _, v, hv, h3.trans h4⟩
      · exact Or.inr ⟨i, List.mem_cons_of_mem _ hi, v, hv, h3⟩

/-- The loop over the paths, minimum. -/
theorem gbm_range_fst (paths : List (List α)) (step : Nat) (acc : WithTop α × WithBot α) :
    (paths.foldl (scanPath step) acc).1 ≤ acc.1 ∧
    (∀ p ∈ paths, ∀ i : Nat, i ≤ min step STEPS → ∀ v : α, p[i]? = some v →
      (paths.foldl (scanPath step) acc).1 ≤ (v : WithTop α)) ∧
    ((paths.foldl (scanPath step) acc).1 = acc.1 ∨
      ∃ p ∈ paths, ∃ i : Nat, i ≤ min step STEPS ∧ ∃ v : α, p[i]? = some v ∧
        (paths.foldl (scanPath step) acc).1 = (v : WithTop α)) := by
  induction paths generalizing acc with
  | nil => simp
  | cons q paths ih =>
    simp only [List.foldl_cons]
    obtain ⟨h1, h2, h3⟩ := ih (scanPath step acc q)
    obtain ⟨g1, g2, g3⟩ := gbm_scan_fst q (List.range (min step STEPS + 1)) acc
    refine ⟨le_trans h1 g1, ?_, ?_⟩
    · intro p hp i hi v hv
      rcases List.mem_cons.mp hp with rfl | hp
      · exact le_trans h1 (g2 i (List.mem_range.mpr (by omega)) v hv)
      · exact h2 p hp i hi v hv
    · rcases h3 with h3 | ⟨p, hp, i, hi, v, hv, h3⟩
      · rcases g3 with g3 | ⟨i, hi, v, hv, g3⟩
        · exact Or.inl (h3.trans g3)
        · exact Or.inr ⟨q, List.mem_cons_self _ _, i, by have := List.mem_range.mp hi; omega,
            v, hv, h3.trans g3⟩
      · exact Or.inr ⟨p, List.mem_cons_of_mem _ hp, i, hi, v, hv, h3⟩

/-- The loop over the paths, maximum. -/
theorem gbm_range_snd (paths : List (List α)) (step : Nat) (acc : WithTop α × WithBot α) :
    acc.2 ≤ (paths.foldl (scanPath step) acc).2 ∧
    (∀ p ∈ paths, ∀ i : Nat, i ≤ min step STEPS → ∀ v : α, p[i]? = some v →
      (v : WithBot α) ≤ (paths.foldl (scanPath step) acc).2) ∧
    ((paths.foldl (scanPath step) acc).2 = acc.2 ∨
      ∃ p ∈ paths, ∃ i : Nat, i ≤ min step STEPS ∧ ∃ v : α, p[i]? = some v ∧
        (paths.foldl (scanPath step) acc).2 = (v : WithBot α)) := by
  induction paths generalizing acc with
  | nil => simp
  | cons q paths ih =>
    simp only [List.foldl_cons]
    obtain ⟨h1, h2, h3⟩ := ih (scanPath step acc q)
    obtain ⟨g1, g2, g3⟩ := gbm_scan_snd q (List.range (min step STEPS + 1)) acc
    refine ⟨le_trans g1 h1, ?_, ?_⟩
    · intro p hp i hi v hv
      rcases List.mem_cons.mp hp with rfl | hp
      · exact le_trans (g2 i (List.mem_range.mpr (by omega)) v hv) h1
      · exact h2 p hp i hi v hv
    · rcases h3 with h3 | ⟨p, hp, i, hi, v, hv, h3⟩
      · rcases g3 with g3 | ⟨i, hi, v, hv, g3⟩
        · exact Or.inl (h3.trans g3)
        · exact Or.inr ⟨q, List.mem_cons_self _ _, i, by have := List.mem_range.mp hi; omega,
            v, hv, h3.trans g3⟩
      · exact Or.inr ⟨p, List.mem_cons_of_mem _ hp, i, hi, v, hv, h3⟩

/-- C6. GBM revealed-prefix range is monotone: for every path set and all steps
`k ≤ k'`, the minimum that the loop of `draw` computes over the revealed prefixes at
step `k'` is at most the one at step `k`, and the maximum at step `k'` is at least the
one at step `k` (`Infinity` and `-Infinity`, the values for an empty reveal, included). -/
theorem gbm_revealed_range_monotone (paths : List (List α)) (k k' : Nat) (h : k ≤ k') :
    (revealedRange paths k').1 ≤ (revealedRange paths k).1 ∧
    (revealedRange paths k).2 ≤ (revealedRange paths k').2 := by
  constructor
  · rcases (gbm_range_fst paths k (⊤, ⊥)).2.2 with h3 | ⟨p, hp, i, hi, v, hv, h3⟩
    · unfold revealedRange
      rw [h3]
      exact le_top
    · unfold revealedRange
      rw [h3]
      exact (gbm_range_fst paths k' (⊤, ⊥)).2.1 p hp i (by omega) v hv
  · rcases (gbm_range_snd paths k (⊤, ⊥)).2.2 with h3 | ⟨p, hp, i, hi, v, hv, h3⟩
    · unfold revealedRange
      rw [h3]
      exact bot_le
    · unfold revealedRange
      rw [h3]
      exact (gbm_range_snd paths k' (⊤, ⊥)).2.1 p hp i (by omega) v hv

end

/-- C6 at a concrete input: two paths over `ℚ`, steps 0 and 1. -/
theorem gbm_revealed_range_monotone_witness :
    (revealedRange ([[1, 2], [1, 1 / 2]] : List (List ℚ)) 1).1 ≤
      (revealedRange ([[1, 2], [1, 1 / 2]] : List (List ℚ)) 0).1 ∧
    (revealedRange ([[1, 2], [1, 1 / 2]] : List (List ℚ)) 0).2 ≤
      (revealedRange ([[1, 2], [1, 1 / 2]] : List (List ℚ)) 1).2 :=
  gbm_revealed_range_monotone _ 0 1 (by decide)

end GBM

/-! ## EF controller: the frontier builder -/

namespace EF

section
variable {α : Type} [LinearOrderedField α]

/-- The inner loop of `buildFrontier` from any starting `best`: the result is at least
the start, at least the return of every qualifying portfolio, and is the start or the
return of a qualifying portfolio. -/
theorem ef_bestStep_fold (ports : List (Portfolio α)) (r step : α) (acc : WithBot α) :
    acc ≤ ports.foldl (bestStep r step) acc ∧
    (∀ p ∈ ports, |p.risk - r| < step * (3 / 2) →
      (p.ret : WithBot α) ≤ ports.foldl (bestStep r step) acc) ∧
    (ports.foldl (bestStep r step) acc = acc ∨
      ∃ p ∈ ports, |p.risk - r| < step * (3 / 2) ∧
        ports.foldl (bestStep r step) acc = (p.ret : WithBot α)) := by
  induction ports generalizing acc with
  | nil => simp
  | cons q ports ih =>
    simp only [List.foldl_cons]
    obtain ⟨h1, h2, h3⟩ := ih (bestStep r step acc q)
    have g1 : acc ≤ bestStep r step acc q := by
      unfold bestStep
      split
      · rename_i h; exact le_of_lt h.2
      · exact le_refl _
    have g2 : |q.risk - r| < step * (3 / 2) → (q.ret : WithBot α) ≤ bestStep r step acc q := by
      intro hq
      unfold bestStep
      split
      · exact le_refl _
      · rename_i h
        exact not_lt.mp fun hlt => h ⟨hq, hlt⟩
    have g3 : bestStep r step acc q = acc ∨
        (|q.risk - r| < step * (3 / 2) ∧ bestStep r step acc q = (q.ret : WithBot α)) := by
      unfold bestStep
      split
      · rename_i h; exact Or.inr ⟨h.1, rfl⟩
      · exact Or.inl rfl
    refine ⟨le_trans g1 h1, ?_, ?_⟩
    · intro p hp hq
      rcases List.mem_cons.mp hp with rfl | hp
      · exact le_trans (g2 hq) h1
      · exact h2 p hp hq
    · rcases h3 with h3 | ⟨p, hp, hq, h3⟩
      · rcases g3 with g3 | ⟨hq, g3⟩
        · exact Or.inl (h3.trans g3)
        · exact Or.inr ⟨q, List.mem_cons_self _ _, hq, h3.trans g3⟩
      · exact Or.inr ⟨p, List.mem_cons_of_mem _ hp, hq, h3⟩

/-- What the bucket loop pushes for bucket `b`: a point `pt` exactly when `pt.risk` is
the bucket risk and `pt.ret` is the largest return among the qualifying portfolios. -/
theorem ef_bucketPoint_eq_some (ports : List (Portfolio α)) (minR maxR : α) (b : Nat)
    (pt : Portfolio α) :
    bucketPoint ports minR maxR b = some pt ↔
      pt.risk = minR + (b : α) * ((maxR - minR) / 60) ∧
      (∃ p ∈ ports, |p.risk - (minR + (b : α) * ((maxR - minR) / 60))| <
        (3 / 2) * ((maxR - minR) / 60) ∧ p.ret = pt.ret) ∧
      ∀ p ∈ ports, |p.risk - (minR + (b : α) * ((maxR - minR) / 60))| <
        (3 / 2) * ((maxR - minR) / 60) → p.ret ≤ pt.ret := by
  have hB : ((BUCKETS : Nat) : α) = 60 := by simp [BUCKETS]
  obtain ⟨-, h2, h3⟩ := ef_bestStep_fold ports
    (minR + (b : α) * ((maxR - minR) / 60)) ((maxR - minR) / 60) ⊥
  simp only [mul_comm ((maxR - minR) / 60) (3 / 2)] at h2 h3
  unfold bucketPoint bestIn
  simp only [hB]
  constructor
  · intro h
    rcases h3 with h3 | ⟨p, hp, hq, h3⟩
    · rw [h3] at h
      exact absurd (show (none : Option (Portfolio α)) = some pt from h) (by simp)
    · rw [h3] at h h2
      have h' : some ({ risk := minR + (b : α) * ((maxR - minR) / 60), ret := p.ret } :
          Portfolio α) = some pt := h
      simp only [Option.some.injEq] at h'
      subst h'
      exact ⟨rfl, ⟨p, hp, hq, rfl⟩, fun q hq1 hq2 => WithBot.coe_le_coe.mp (h2 q hq1 hq2)⟩
  · rintro ⟨hr, ⟨p, hp, hq, hpr⟩, hmax⟩
    rcases h3 with h3 | ⟨p', hp', hq', h3⟩
    · have := h2 p hp hq
      rw [h3] at this
      exact absurd this (by simp)
    · rw [h3]
      have h4 := h2 p hp hq
      rw [h3] at h4
      have h5 : p.ret ≤ p'.ret := WithBot.coe_le_coe.mp h4
      have h6 : p'.ret ≤ pt.ret := hmax p' hp' hq'
      have h7 : p'.ret = pt.ret := le_antisymm h6 (hpr ▸ h5)
      show (match (p'.ret : WithBot α) with
        | none => none
        | some best => some { risk := minR + (b : α) * ((maxR - minR) / 60), ret := best }) = some pt
      show some ({ risk := minR + (b : α) * ((maxR - minR) / 60), ret := p'.ret } : Portfolio α)
        = some pt
      rw [h7, ← hr]

/-- A bucket gets a point exactly when some portfolio qualifies for it. -/
theorem ef_bucketPoint_isSome (ports : List (Portfolio α)) (minR maxR : α) (b : Nat) :
    (∃ pt, bucketPoint ports minR maxR b = some pt) ↔
      ∃ p ∈ ports, |p.risk - (minR + (b : α) * ((maxR - minR) / 60))| <
        (3 / 2) * ((maxR - minR) / 60) := by
  constructor
  · rintro ⟨pt, h⟩
    obtain ⟨-, ⟨p, hp, hq, -⟩, -⟩ := (ef_bucketPoint_eq_some ports minR maxR b pt).mp h
    exact ⟨p, hp, hq⟩
  · rintro ⟨p, hp, hq⟩
    have hB : ((BUCKETS : Nat) : α) = 60 := by simp [BUCKETS]
    obtain ⟨-, h2, h3⟩ := ef_bestStep_fold ports
      (minR + (b : α) * ((maxR - minR) / 60)) ((maxR - minR) / 60) ⊥
    simp only [mul_comm ((maxR - minR) / 60) (3 / 2)] at h2 h3
    rcases h3 with h3 | ⟨p', -, -, h3⟩
    · have := h2 p hp hq
      rw [h3] at this
      exact absurd this (by simp)
    · refine ⟨{ risk := minR + (b : α) * ((maxR - minR) / 60), ret := p'.ret }, ?_⟩
      unfold bucketPoint bestIn
      simp only [hB]
      rw [h3]

/-- A qualifying portfolio forces a positive bucket width. -/
theorem ef_step_pos_of_qualifies (x r w : α) (h : |x - r| < (3 / 2) * w) : 0 < w := by
  have h0 : 0 ≤ |x - r| := abs_nonneg _
  have h1 : 0 < (3 / 2) * w := lt_of_le_of_lt h0 h
  by_contra hw
  have : (3 / 2) * w ≤ 0 := mul_nonpos_of_nonneg_of_nonpos (by norm_num) (not_lt.mp hw)
  exact absurd h1 (not_lt.mpr this)

/-- C4. Frontier builder.  For every portfolio list and every `minR`, `maxR`, with
`r_b = minR + b * (maxR - minR) / 60` and a portfolio `p` qualifying for bucket `b` when
`|p.risk - r_b| < 1.5 * (maxR - minR) / 60`: the output has at most 61 points; its risk
values are in (strictly) ascending order; a point is in the output exactly when it is
`(r_b, best_b)` for a bucket `b ≤ 60` for which some portfolio qualifies, `best_b` being
the maximum return of the qualifying portfolios (attained by one of them and at least
the return of each); and a bucket `b ≤ 60` has a point in the output if and only if at
least one portfolio qualifies for it. -/
theorem ef_buildFrontier_spec (ports : List (Portfolio α)) (minR maxR : α) :
    (buildFrontier ports minR maxR).length ≤ 61 ∧
    (buildFrontier ports minR maxR).Pairwise (fun a b => a.risk < b.risk) ∧
    (∀ pt : Portfolio α, pt ∈ buildFrontier ports minR maxR ↔
      ∃ b : Nat, b ≤ 60 ∧ pt.risk = minR + (b : α) * ((maxR - minR) / 60) ∧
        (∃ p ∈ ports, |p.risk - (minR + (b : α) * ((maxR - minR) / 60))| <
          (3 / 2) * ((maxR - minR) / 60) ∧ p.ret = pt.ret) ∧
        ∀ p ∈ ports, |p.risk - (minR + (b : α) * ((maxR - minR) / 60))| <
          (3 / 2) * ((maxR - minR) / 60) → p.ret ≤ pt.ret) ∧
    (∀ b : Nat, b ≤ 60 →
      ((∃ pt ∈ buildFrontier ports minR maxR,
          pt.risk = minR + (b : α) * ((maxR - minR) / 60)) ↔
        ∃ p ∈ ports, |p.risk - (minR + (b : α) * ((maxR - minR) / 60))| <
          (3 / 2) * ((maxR - minR) / 60))) := by
  have hmem : ∀ pt : Portfolio α, pt ∈ buildFrontier ports minR maxR ↔
      ∃ b : Nat, b ≤ 60 ∧ bucketPoint ports minR maxR b = some pt := by
    intro pt
    simp only [buildFrontier, List.mem_filterMap, List.mem_range, BUCKETS]
    constructor
    · rintro ⟨b, hb, h⟩; exact ⟨b, by omega, h⟩
    · rintro ⟨b, hb, h⟩; exact ⟨b, by omega, h⟩
  refine ⟨?_, ?_, ?_, ?_⟩
  · have h := List.length_filterMap_le (bucketPoint ports minR maxR) (List.range (BUCKETS + 1))
    simpa [buildFrontier, BUCKETS] using h
  · unfold buildFrontier
    refine List.Pairwise.filterMap _ ?_ (List.pairwise_lt_range (BUCKETS + 1))
    intro b b' hbb x hx y hy
    obtain ⟨hxr, ⟨p, -, hq, -⟩, -⟩ := (ef_bucketPoint_eq_some ports minR maxR b x).mp hx
    obtain ⟨hyr, -, -⟩ := (ef_bucketPoint_eq_some ports minR maxR b' y).mp hy
    have hw := ef_step_pos_of_qualifies _ _ _ hq
    rw [hxr, hyr]
    have hcast : (b : α) < (b' : α) := Nat.cast_lt.mpr hbb
    have := mul_lt_mul_of_pos_right hcast hw
    linarith
  · intro pt
    rw [hmem]
    constructor
    · rintro ⟨b, hb, h⟩
      exact ⟨b, hb, (ef_bucketPoint_eq_some ports minR maxR b pt).mp h⟩
    · rintro ⟨b, hb, h⟩
      exact ⟨b, hb, (ef_bucketPoint_eq_some ports minR maxR b pt).mpr h⟩
  · intro b hb
    constructor
    · rintro ⟨pt, hpt, hr⟩
      obtain ⟨b', -, h⟩ := (hmem pt).mp hpt
      obtain ⟨hr', ⟨p, hp, hq, -⟩, -⟩ := (ef_bucketPoint_eq_some ports minR maxR b' pt).mp h
      have hw := ef_step_pos_of_qualifies _ _ _ hq
      have heq : (b' : α) * ((maxR - minR) / 60) = (b : α) * ((maxR - minR) / 60) := by
        have := hr'.symm.trans hr
        linarith
      have hbb : (b' : α) = (b : α) := mul_right_cancel₀ (ne_of_gt hw) heq
      have : b' = b := Nat.cast_injective hbb
      subst this
      exact ⟨p, hp, hq⟩
    · intro h
      obtain ⟨pt, hpt⟩ := (ef_bucketPoint_isSome ports minR maxR b).mpr h
      exact ⟨pt, (hmem pt).mpr ⟨b, hb, hpt⟩,
        ((ef_bucketPoint_eq_some ports minR maxR b pt).mp hpt).1⟩

end

end EF

/-! ## Frame scheduling: one pending callback per controller -/

namespace Sched

section
variable {σ : Type}

/-- After `raf = requestAnimationFrame(tick)` on a state with nothing pending, exactly
the new handle is pending, it is stored in `raf`, and it is not 0. -/
theorem sched_request_of_nil (s : State σ) (gap : Nat) (h : s.pending = []) :
    ∃ k, (request s gap).pending = [k] ∧ (request s gap).raf = some k ∧ k ≠ 0 := by
  refine ⟨s.last + gap + 1, ?_, rfl, by omega⟩
  simp [request, h]

/-- The invariant of the skeleton: exactly one callback is pending, and `raf` holds its
(nonzero) handle. -/
theorem sched_invariant (c : Controller σ) (s : State σ) (hs : Reachable c s) :
    ∃ k, s.pending = [k] ∧ s.raf = some k ∧ k ≠ 0 := by
  induction hs with
  | start s0 last gap => exact sched_request_of_nil _ gap rfl
  | fire s h gap _ hmem ih =>
    obtain ⟨k, hp, -, -⟩ := ih
    apply sched_request_of_nil
    rw [hp, List.mem_singleton] at hmem
    subst hmem
    simp [hp]
  | reset s gap _ ih =>
    obtain ⟨k, hp, hr, hk⟩ := ih
    apply sched_request_of_nil
    simp [cancelIfSet, hr, hk, hp]

/-- C7. Single tick loop per controller.  In every state reachable from a controller's
start-up by frame firings and calls of `reset()`, at most one callback of the controller
is pending (exactly one, whose handle is the one stored in `raf`); and after two calls of
`reset()` in succession exactly one callback is pending and `raf` holds its handle. -/
theorem sched_single_pending (c : Controller σ) (s : State σ) (hs : Reachable c s) :
    s.pending.length ≤ 1 ∧
    (∃ k, s.pending = [k] ∧ s.raf = some k) ∧
    ∀ g1 g2 : Nat, ∃ k, (reset c (reset c s g1) g2).pending = [k] ∧
      (reset c (reset c s g1) g2).raf = some k := by
  obtain ⟨k, hp, hr, -⟩ := sched_invariant c s hs
  refine ⟨by simp [hp], ⟨k, hp, hr⟩, ?_⟩
  intro g1 g2
  obtain ⟨k2, hp2, hr2, -⟩ :=
    sched_invariant c _ (Reachable.reset _ g2 (Reachable.reset _ g1 hs))
  exact ⟨k2, hp2, hr2⟩

end

/-- C7 at a concrete input: the GBM controller right after start-up. -/
theorem sched_single_pending_witness :
    (start (gbm (fun x : ℚ => 1 + x) (constRand 0 0)) (GBM.declared ℚ) 0 0).pending.length ≤ 1 ∧
    (∃ k, (start (gbm (fun x : ℚ => 1 + x) (constRand 0 0)) (GBM.declared ℚ) 0 0).pending = [k] ∧
      (start (gbm (fun x : ℚ => 1 + x) (constRand 0 0)) (GBM.declared ℚ) 0 0).raf = some k) ∧
    ∀ g1 g2 : Nat, ∃ k,
      (reset (gbm (fun x : ℚ => 1 + x) (constRand 0 0))
        (reset (gbm (fun x : ℚ => 1 + x) (constRand 0 0))
          (start (gbm (fun x : ℚ => 1 + x) (constRand 0 0)) (GBM.declared ℚ) 0 0) g1) g2).pending
        = [k] ∧
      (reset (gbm (fun x : ℚ => 1 + x) (constRand 0 0))
        (reset (gbm (fun x : ℚ => 1 + x) (constRand 0 0))
          (start (gbm (fun x : ℚ => 1 + x) (constRand 0 0)) (GBM.declared ℚ) 0 0) g1) g2).raf
        = some k :=
  sched_single_pending _ _ (Reachable.start _ _ _)

end Sched

/-! ## Divisors of the vertical scaling -/

section
variable {α : Type} [LinearOrderedField α]

theorem jsMin_le_head (x : α) (xs : List α) : jsMin (x :: xs) ≤ x := by
  unfold jsMin
  induction xs generalizing x with
  | nil => exact le_refl _
  | cons y ys ih =>
    simp only [List.foldl_cons]
    exact le_trans (ih (min x y)) (min_le_left _ _)

theorem head_le_jsMax (x : α) (xs : List α) : x ≤ jsMax (x :: xs) := by
  unfold jsMax
  induction xs generalizing x with
  | nil => exact le_refl _
  | cons y ys ih =>
    simp only [List.foldl_cons]
    exact le_trans (le_max_left _ _) (ih (max x y))

theorem jsMin_le_jsMax (l : List α) : jsMin l ≤ jsMax l := by
  cases l with
  | nil => exact le_refl _
  | cons x xs => exact le_trans (jsMin_le_head x xs) (head_le_jsMax x xs)

theorem jsMin_of_all_eq (c : α) (l : List α) (hne : l ≠ []) (h : ∀ x ∈ l, x = c) :
    jsMin l = c := by
  cases l with
  | nil => exact absurd rfl hne
  | cons x xs =>
    unfold jsMin
    have hx : x = c := h x (List.mem_cons_self _ _)
    subst hx
    have hxs : ∀ y ∈ xs, y = x := fun y hy => h y (List.mem_cons_of_mem _ hy)
    clear h hne
    induction xs with
    | nil => rfl
    | cons y ys ih =>
      have hy : y = x := hxs y (List.mem_cons_self _ _)
      simp only [List.foldl_cons, hy, min_self]
      exact ih fun z hz => hxs z (List.mem_cons_of_mem _ hz)

theorem jsMax_of_all_eq (c : α) (l : List α) (hne : l ≠ []) (h : ∀ x ∈ l, x = c) :
    jsMax l = c := by
  cases l with
  | nil => exact absurd rfl hne
  | cons x xs =>
    unfold jsMax
    have hx : x = c := h x (List.mem_cons_self _ _)
    subst hx
    have hxs : ∀ y ∈ xs, y = x := fun y hy => h y (List.mem_cons_of_mem _ hy)
    clear h hne
    induction xs with
    | nil => rfl
    | cons y ys ih =>
      have hy : y = x := hxs y (List.mem_cons_self _ _)
      simp only [List.foldl_cons, hy, max_self]
      exact ih fun z hz => hxs z (List.mem_cons_of_mem _ hz)

/-- GBM: after the guard of line 100 the divisor of `yScale` is never 0, whatever the
loop has computed. -/
theorem gbm_yScale_divisor_ne_zero (minV : WithTop α) (maxV : WithBot α) :
    GBM.yScaleDivisor minV (GBM.guardMax minV maxV) ≠ some 0 := by
  cases minV with
  | top =>
    intro h
    cases maxV <;> exact absurd h (by simp [GBM.yScaleDivisor, GBM.guardMax])
  | coe lo =>
    cases maxV with
    | bot =>
      intro h
      exact absurd h (by simp [GBM.yScaleDivisor, GBM.guardMax])
    | coe hi =>
      by_cases heq : hi = lo
      · subst heq
        have h1 : GBM.guardMax (hi : WithTop α) (hi : WithBot α)
            = ((hi + 1 / 100 : α) : WithBot α) := by
          show (if hi = hi then ((hi + 1 / 100 : α) : WithBot α) else (hi : WithBot α)) = _
          rw [if_pos rfl]
        rw [h1]
        show some (hi + 1 / 100 - hi) ≠ some 0
        simp
      · have h1 : GBM.guardMax (lo : WithTop α) (hi : WithBot α) = (hi : WithBot α) := by
          show (if hi = lo then ((lo + 1 / 100 : α) : WithBot α) else (hi : WithBot α)) = _
          rw [if_neg heq]
        rw [h1]
        show some (hi - lo) ≠ some 0
        simp only [ne_eq, Option.some.injEq]
        exact sub_ne_zero.mpr heq

/-- OU: the divisor `maxV - minV` of `draw` is at least 0.2 in every state, since the
two margins of 0.1 are added to a maximum that is not below the minimum. -/
theorem ou_divisor_pos (s : OU.State α) : 2 / 10 ≤ OU.divisor s ∧ OU.divisor s ≠ 0 := by
  have h := jsMin_le_jsMax (OU.revealed s)
  have h1 : 2 / 10 ≤ OU.divisor s := by
    unfold OU.divisor OU.maxV OU.minV
    linarith
  refine ⟨h1, ?_⟩
  have : (0 : α) < 2 / 10 := by norm_num
  exact ne_of_gt (lt_of_lt_of_le this h1)

theorem ef_genPortfolios_length (r : Rand α) (ku kn : Nat) :
    (EF.genPortfolios r ku kn).length = EF.N_PORT := by
  unfold EF.genPortfolios
  rw [List.length_insertionSort, List.length_map, List.length_range]

theorem ef_mem_genPortfolios (r : Rand α) (ku kn : Nat) (p : EF.Portfolio α) :
    p ∈ EF.genPortfolios r ku kn ↔ ∃ i : Nat, i < EF.N_PORT ∧ p = EF.genOne r ku kn i := by
  unfold EF.genPortfolios
  rw [(List.perm_insertionSort _ _).mem_iff]
  simp only [List.mem_map, List.mem_range]
  constructor
  · rintro ⟨i, hi, rfl⟩; exact ⟨i, hi, rfl⟩
  · rintro ⟨i, hi, rfl⟩; exact ⟨i, hi, rfl⟩

theorem ef_genPortfolios_ne_nil (r : Rand α) (ku kn : Nat) : EF.genPortfolios r ku kn ≠ [] := by
  intro h
  have := ef_genPortfolios_length r ku kn
  rw [h] at this
  simp [EF.N_PORT] at this

end

/-- With constant sample streams all portfolios of `init` have the same return, so
`maxRet - minRet` is 0. -/
theorem ef_init_divisor_const (u z : ℚ) (s : EF.State ℚ) :
    EF.toXYDivisor (EF.init (constRand u z) s) = 0 := by
  have hall : ∀ x ∈ (EF.genPortfolios (constRand u z) s.usedU s.usedN).map (fun p => p.ret),
      x = (EF.genOne (constRand u z) 0 0 0).ret := by
    intro x hx
    obtain ⟨p, hp, rfl⟩ := List.mem_map.mp hx
    obtain ⟨i, -, rfl⟩ := (ef_mem_genPortfolios _ _ _ p).mp hp
    rfl
  have hne : (EF.genPortfolios (constRand u z) s.usedU s.usedN).map (fun p => p.ret) ≠ [] := by
    intro h
    exact ef_genPortfolios_ne_nil _ _ _ (List.map_eq_nil_iff.mp h)
  simp only [EF.toXYDivisor, EF.init]
  rw [jsMax_of_all_eq _ _ hne hall, jsMin_of_all_eq _ _ hne hall, sub_self]

theorem ef_tick_divisor (r : Rand ℚ) (s : EF.State ℚ) :
    EF.toXYDivisor (EF.tick r s) = EF.toXYDivisor s ∨
      ∃ s1, EF.tick r s = EF.init r s1 := by
  unfold EF.tick
  cases s.phase with
  | scatter =>
    left
    simp only
    split <;> rfl
  | curve =>
    left
    simp only
    split <;> rfl
  | pause =>
    simp only
    split
    · exact Or.inr ⟨_, rfl⟩
    · exact Or.inl rfl

theorem ef_reachable_divisor_const (u z : ℚ) (s : EF.State ℚ)
    (hs : EF.Reachable (constRand u z) s) : EF.toXYDivisor s = 0 := by
  induction hs with
  | init s => exact ef_init_divisor_const u z s
  | tick s _ ih =>
    rcases ef_tick_divisor (constRand u z) s with h | ⟨s1, h⟩
    · rw [h, ih]
    · rw [h]; exact ef_init_divisor_const u z s1

theorem ef_iterate_reachable (r : Rand ℚ) (s : EF.State ℚ) (n : Nat) :
    EF.Reachable r ((EF.tick r)^[n] (EF.init r s)) := by
  induction n with
  | zero => exact EF.Reachable.init s
  | succ n ih =>
    rw [Function.iterate_succ_apply']
    exact EF.Reachable.tick _ ih

/-- C8, as stated, fails for the efficient frontier: when `Math.random()` returns 0.5 at
every call and `randn()` the same value at every call (0 here; any constant gives the
same), the 300 portfolios are equal, and in the state after the first tick, where `draw`
has `limit = 4` portfolios to map through `toXY`, the divisor `maxRet - minRet` is 0. -/
theorem ef_toXY_divisor_zero_at_const :
    EF.toXYDivisor
      ((EF.tick (constRand (1 / 2) 0))^[1] (EF.init (constRand (1 / 2) 0) EF.declared)) = 0 ∧
    EF.limit
      ((EF.tick (constRand (1 / 2) 0))^[1] (EF.init (constRand (1 / 2) 0) EF.declared)) = 4 := by
  refine ⟨ef_reachable_divisor_const (1 / 2) 0 _ (ef_iterate_reachable _ _ 1), ?_⟩
  rw [EF.ef_iterate_tick_scatter _ _ 1 (by omega)]
  simp only [EF.limit, EF.init, ef_genPortfolios_length, EF.N_PORT]
  decide

/-! ## Progressive reveal stays in bounds -/

section
variable {α : Type} [LinearOrderedField α]

theorem gbm_tick_paths (expf : α → α) (r : Rand α) (s : GBM.State α) :
    (GBM.tick expf r s).paths = s.paths ∨ GBM.tick expf r s = GBM.init expf r s := by
  unfold GBM.tick
  split
  · exact Or.inl rfl
  · split
    · exact Or.inl rfl
    · exact Or.inr rfl

/-- In every reachable GBM state the path set is one generated by `buildPaths`. -/
theorem gbm_reachable_paths (expf : α → α) (r : Rand α) (s : GBM.State α)
    (hs : GBM.Reachable expf r s) : ∃ k, s.paths = GBM.buildPaths expf r k := by
  induction hs with
  | init s => exact ⟨s.used, rfl⟩
  | tick s _ ih =>
    rcases gbm_tick_paths expf r s with h | h
    · rw [h]; exact ih
    · rw [h]; exact ⟨s.used, rfl⟩

theorem ou_tick_series (r : Rand α) (s : OU.State α) :
    (OU.tick r s).series = s.series ∨ OU.tick r s = OU.init r s := by
  unfold OU.tick
  split
  · exact Or.inl rfl
  · split
    · exact Or.inl rfl
    · exact Or.inr rfl

/-- In every reachable OU state the series is complete. -/
theorem ou_reachable_series_length (r : Rand α) (s : OU.State α)
    (hs : OU.Reachable r s) : s.series.length = OU.STEPS + 1 := by
  induction hs with
  | init s => exact OU.ou_init_series_length r s
  | tick s _ ih =>
    rcases ou_tick_series r s with h | h
    · rw [h]; exact ih
    · rw [h]; exact OU.ou_init_series_length r s

/-- In every reachable OU state `draw` takes the minimum and maximum of a nonempty
list. -/
theorem ou_revealed_ne_nil (r : Rand α) (s : OU.State α) (hs : OU.Reachable r s) :
    OU.revealed s ≠ [] := by
  intro h
  have hlen := ou_reachable_series_length r s hs
  have h0 : (OU.revealed s).length = 0 := by rw [h]; rfl
  simp only [OU.revealed, List.length_take, OU.revealedLen, hlen] at h0
  omega

/-- The value of `Math.round(n * Math.min(t, 1))` never exceeds `n`, for a natural number `n`. -/
theorem jsRound_mul_min_le [FloorRing α] (n : Nat) (t : α) :
    jsRound ((n : α) * min t 1) ≤ (n : Int) := by
  unfold jsRound
  have h1 : (n : α) * min t 1 ≤ (n : α) := by
    have hn : (0 : α) ≤ (n : α) := Nat.cast_nonneg n
    calc (n : α) * min t 1 ≤ (n : α) * 1 := mul_le_mul_of_nonneg_left (min_le_right _ _) hn
      _ = (n : α) := mul_one _
  have h2 : (n : α) * min t 1 + 1 / 2 < ((n : Int) : α) + 1 := by
    have : ((n : Int) : α) = (n : α) := by simp
    rw [this]
    linarith
  have h3 : ⌊(n : α) * min t 1 + 1 / 2⌋ < (n : Int) + 1 := Int.floor_lt.mpr (by
    push_cast
    push_cast at h2
    exact h2)
  omega

/-- C9. Progressive reveal stays in bounds.  In every state reachable from `init` by
ticks: for GBM, there are 8 paths of 121 values each and every index `i` that `draw`
reads from a path (in the min/max loop or in the polyline loop) satisfies `i ≤ step` and
`i < 121`; for OU, the series has 201 values and every index read satisfies `i ≤ step`
and `i < 201`; for EF, `portfolios[i]` is read only for
`i < min(portIdx, portfolios.length)`, and `frontier[i]` only for
`i < round(frontier.length * min(curveT, 1))`, which is at most `frontier.length`. -/
theorem reveal_in_bounds [FloorRing α] (expf : α → α) (r : Rand α) :
    (∀ s : GBM.State α, GBM.Reachable expf r s →
      s.paths.length = GBM.PATHS ∧
      ∀ p ∈ s.paths, p.length = GBM.STEPS + 1 ∧
        (∀ i ∈ GBM.scanReads s.step, i ≤ s.step ∧ i < p.length) ∧
        (∀ i ∈ GBM.lineReads s.step, i ≤ s.step ∧ i < p.length)) ∧
    (∀ s : OU.State α, OU.Reachable r s →
      s.series.length = OU.STEPS + 1 ∧
      ∀ i ∈ OU.reads s.step, i ≤ s.step ∧ i < s.series.length) ∧
    (∀ s : EF.State α, EF.Reachable r s →
      (∀ i ∈ EF.portReads s, i < min s.portIdx s.portfolios.length ∧
        i < s.portfolios.length) ∧
      (∀ i ∈ EF.frontierReads s, (i : Int) < EF.curveLen s ∧ i < s.frontier.length) ∧
      EF.curveLen s ≤ (s.frontier.length : Int)) := by
  refine ⟨?_, ?_, ?_⟩
  · intro s hs
    obtain ⟨k, hk⟩ := gbm_reachable_paths expf r s hs
    rw [hk]
    refine ⟨GBM.gbm_buildPaths_length _ _ _, ?_⟩
    intro p hp
    obtain ⟨j, -, hpj⟩ := GBM.gbm_mem_buildPaths _ _ _ p hp
    have hlen : p.length = GBM.STEPS + 1 := by
      rw [hpj]
      exact GBM.gbm_buildPath_length expf r (k + j * GBM.STEPS)
    refine ⟨hlen, ?_, ?_⟩
    · intro i hi
      rw [hlen]
      have := List.mem_range.mp hi
      omega
    · intro i hi
      rw [hlen]
      have := List.mem_range.mp hi
      omega
  · intro s hs
    have hlen := ou_reachable_series_length r s hs
    refine ⟨hlen, ?_⟩
    intro i hi
    rw [hlen]
    have := List.mem_range.mp hi
    unfold OU.revealedLen at this
    omega
  · intro s _
    have hle : EF.curveLen s ≤ (s.frontier.length : Int) := jsRound_mul_min_le _ _
    refine ⟨?_, ?_, hle⟩
    · intro i hi
      have := List.mem_range.mp hi
      unfold EF.limit at this
      omega
    · intro i hi
      unfold EF.frontierReads at hi
      split at hi
      · split at hi
        · have := List.mem_range.mp hi
          omega
        · exact absurd hi (List.not_mem_nil _)
      · exact absurd hi (List.not_mem_nil _)

end

/-! ## Generated portfolios -/

section
variable {α : Type} [LinearOrderedField α]

/-- The risk of every generated portfolio is in `[0.06, 0.25)` when the uniform samples
are in `[0, 1)`. -/
theorem ef_genPortfolios_risk_range (r : Rand α) (ku kn : Nat)
    (hu : ∀ k, 0 ≤ r.unif k ∧ r.unif k < 1) (p : EF.Portfolio α)
    (hp : p ∈ EF.genPortfolios r ku kn) : 6 / 100 ≤ p.risk ∧ p.risk < 25 / 100 := by
  obtain ⟨i, -, rfl⟩ := (ef_mem_genPortfolios r ku kn p).mp hp
  obtain ⟨h0, h1⟩ := hu (ku + 2 * i)
  simp only [EF.genOne]
  constructor <;> linarith

/-- After `genPortfolios` the portfolios are in ascending order of risk. -/
theorem ef_genPortfolios_sorted (r : Rand α) (ku kn : Nat) :
    (EF.genPortfolios r ku kn).Sorted (fun a b => a.risk ≤ b.risk) := by
  haveI : IsTotal (EF.Portfolio α) (fun a b => a.risk ≤ b.risk) := ⟨fun a b => le_total _ _⟩
  haveI : IsTrans (EF.Portfolio α) (fun a b => a.risk ≤ b.risk) :=
    ⟨fun _ _ _ h1 h2 => le_trans h1 h2⟩
  exact List.sorted_insertionSort _ _

end

/-- C10, the return range evaluated: with uniform samples 0.9 (for `risk`) and 0 (for
`ret`), all in `[0, 1)`, and normal samples 0, `genPortfolios` yields a portfolio whose
return is below 0.04 (it is 0.0172), outside the range `[0.04, 0.18]` stated in the
comment of the function. -/
theorem ef_genPortfolios_ret_below_range :
    (∀ k, 0 ≤ lowRetRand.unif k ∧ lowRetRand.unif k < 1) ∧
    (EF.genOne lowRetRand 0 0 0).ret = 172 / 10000 ∧
    ∃ p ∈ EF.genPortfolios lowRetRand 0 0, p.ret < 4 / 100 := by
  have hret : (EF.genOne lowRetRand 0 0 0).ret = 172 / 10000 := by
    norm_num [EF.genOne, lowRetRand]
  refine ⟨?_, hret, EF.genOne lowRetRand 0 0 0, ?_, ?_⟩
  · intro k
    simp only [lowRetRand]
    split <;> norm_num
  · exact (ef_mem_genPortfolios _ _ _ _).mpr ⟨0, by decide, rfl⟩
  · rw [hret]
    norm_num

/-! ## Divisors of the vertical scaling in reachable states -/

section
variable {α : Type} [LinearOrderedField α]

theorem jsMin_le_of_mem (l : List α) (x : α) (hx : x ∈ l) : jsMin l ≤ x := by
  cases l with
  | nil => exact absurd hx (List.not_mem_nil _)
  | cons a as =>
    unfold jsMin
    induction as generalizing a with
    | nil =>
      rw [List.mem_singleton] at hx
      rw [hx]
      exact le_refl _
    | cons b bs ih =>
      simp only [List.foldl_cons]
      rcases List.mem_cons.mp hx with h | h
      · have h1 := jsMin_le_head (min a b) bs
        unfold jsMin at h1
        rw [h]
        exact le_trans h1 (min_le_left _ _)
      · rcases List.mem_cons.mp h with h | h
        · have h1 := jsMin_le_head (min a b) bs
          unfold jsMin at h1
          rw [h]
          exact le_trans h1 (min_le_right _ _)
        · exact ih (min a b) (List.mem_cons_of_mem _ h)

theorem le_jsMax_of_mem (l : List α) (x : α) (hx : x ∈ l) : x ≤ jsMax l := by
  cases l with
  | nil => exact absurd hx (List.not_mem_nil _)
  | cons a as =>
    unfold jsMax
    induction as generalizing a with
    | nil =>
      rw [List.mem_singleton] at hx
      rw [hx]
      exact le_refl _
    | cons b bs ih =>
      simp only [List.foldl_cons]
      rcases List.mem_cons.mp hx with h | h
      · have h1 := head_le_jsMax (max a b) bs
        unfold jsMax at h1
        rw [h]
        exact le_trans (le_max_left _ _) h1
      · rcases List.mem_cons.mp h with h | h
        · have h1 := head_le_jsMax (max a b) bs
          unfold jsMax at h1
          rw [h]
          exact le_trans (le_max_right _ _) h1
        · exact ih (max a b) (List.mem_cons_of_mem _ h)

theorem foldl_min_mem (a : α) (as : List α) : as.foldl min a ∈ a :: as := by
  induction as generalizing a with
  | nil => exact List.mem_cons_self _ _
  | cons b bs ih =>
    simp only [List.foldl_cons]
    rcases List.mem_cons.mp (ih (min a b)) with h | h
    · rw [h]
      rcases min_choice a b with hc | hc
      · rw [hc]; exact List.mem_cons_self _ _
      · rw [hc]; exact List.mem_cons_of_mem _ (List.mem_cons_self _ _)
    · exact List.mem_cons_of_mem _ (List.mem_cons_of_mem _ h)

theorem foldl_max_mem (a : α) (as : List α) : as.foldl max a ∈ a :: as := by
  induction as generalizing a with
  | nil => exact List.mem_cons_self _ _
  | cons b bs ih =>
    simp only [List.foldl_cons]
    rcases List.mem_cons.mp (ih (max a b)) with h | h
    · rw [h]
      rcases max_choice a b with hc | hc
      · rw [hc]; exact List.mem_cons_self _ _
      · rw [hc]; exact List.mem_cons_of_mem _ (List.mem_cons_self _ _)
    · exact List.mem_cons_of_mem _ (List.mem_cons_of_mem _ h)

theorem jsMin_mem (l : List α) (hne : l ≠ []) : jsMin l ∈ l := by
  cases l with
  | nil => exact absurd rfl hne
  | cons a as => exact foldl_min_mem a as

theorem jsMax_mem (l : List α) (hne : l ≠ []) : jsMax l ∈ l := by
  cases l with
  | nil => exact absurd rfl hne
  | cons a as => exact foldl_max_mem a as

theorem ef_init_ret_range (r : Rand α) (s : EF.State α) :
    (EF.init r s).portfolios ≠ [] ∧
      (EF.init r s).minRet = jsMin ((EF.init r s).portfolios.map fun p => p.ret) ∧
      (EF.init r s).maxRet = jsMax ((EF.init r s).portfolios.map fun p => p.ret) := by
  simp only [EF.init]
  exact ⟨ef_genPortfolios_ne_nil _ _ _, trivial, trivial⟩

/-- A tick of the EF controller is a call of `init` or leaves the portfolios and the
return range as they are. -/
theorem ef_tick_keeps (r : Rand α) (s : EF.State α) :
    ((EF.tick r s).portfolios = s.portfolios ∧ (EF.tick r s).minRet = s.minRet ∧
      (EF.tick r s).maxRet = s.maxRet) ∨ ∃ s1, EF.tick r s = EF.init r s1 := by
  unfold EF.tick
  cases s.phase with
  | scatter =>
    left
    simp only
    split <;> exact ⟨rfl, rfl, rfl⟩
  | curve =>
    left
    simp only
    split <;> exact ⟨rfl, rfl, rfl⟩
  | pause =>
    simp only
    split
    · exact Or.inr ⟨_, rfl⟩
    · exact Or.inl ⟨rfl, rfl, rfl⟩

/-- In every reachable EF state there are portfolios, and `minRet`, `maxRet` are the
least and the largest of their returns. -/
theorem ef_reachable_ret_range (r : Rand α) (s : EF.State α) (hs : EF.Reachable r s) :
    s.portfolios ≠ [] ∧ s.minRet = jsMin (s.portfolios.map fun p => p.ret) ∧
      s.maxRet = jsMax (s.portfolios.map fun p => p.ret) := by
  induction hs with
  | init s => exact ef_init_ret_range r s
  | tick s _ ih =>
    rcases ef_tick_keeps r s with ⟨h1, h2, h3⟩ | ⟨s1, h⟩
    · rw [h1, h2, h3]; exact ih
    · rw [h]; exact ef_init_ret_range r s1

/-- GBM: with finite `minV` and `maxV`, the divisor of `yScale` after the guard of line
100 is a finite number other than 0. -/
theorem gbm_yScale_divisor_finite (lo hi : α) :
    ∃ d : α, GBM.yScaleDivisor (lo : WithTop α) (GBM.guardMax (lo : WithTop α) (hi : WithBot α))
      = some d ∧ d ≠ 0 := by
  by_cases heq : hi = lo
  · subst heq
    have h1 : GBM.guardMax (hi : WithTop α) (hi : WithBot α)
        = ((hi + 1 / 100 : α) : WithBot α) := by
      show (if hi = hi then ((hi + 1 / 100 : α) : WithBot α) else (hi : WithBot α)) = _
      rw [if_pos rfl]
    rw [h1]
    refine ⟨hi + 1 / 100 - hi, rfl, ?_⟩
    simp
  · have h1 : GBM.guardMax (lo : WithTop α) (hi : WithBot α) = (hi : WithBot α) := by
      show (if hi = lo then ((lo + 1 / 100 : α) : WithBot α) else (hi : WithBot α)) = _
      rw [if_neg heq]
    rw [h1]
    exact ⟨hi - lo, rfl, sub_ne_zero.mpr heq⟩

/-- GBM: in every reachable state the loop of `draw` ends with finite `minV` and `maxV`
(each path starts with a value). -/
theorem gbm_reachable_range_finite (expf : α → α) (r : Rand α) (s : GBM.State α)
    (hs : GBM.Reachable expf r s) :
    ∃ lo hi : α, (GBM.revealedRange s.paths s.step).1 = (lo : WithTop α) ∧
      (GBM.revealedRange s.paths s.step).2 = (hi : WithBot α) := by
  obtain ⟨k, hk⟩ := gbm_reachable_paths expf r s hs
  have hmem : GBM.buildPath expf r (k + 0 * GBM.STEPS) ∈ s.paths := by
    rw [hk]
    exact List.getElem?_mem (GBM.gbm_buildPaths_getElem? expf r k 0 (by decide))
  have h0 : (GBM.buildPath expf r (k + 0 * GBM.STEPS))[0]? = some 1 := by
    rw [GBM.buildPath, GBM.gbm_pathLoop_keeps _ _ _ _ _ _ _ (by simp)]
    rfl
  have hlo := (GBM.gbm_range_fst s.paths s.step (⊤, ⊥)).2.1 _ hmem 0 (Nat.zero_le _) 1 h0
  have hhi := (GBM.gbm_range_snd s.paths s.step (⊤, ⊥)).2.1 _ hmem 0 (Nat.zero_le _) 1 h0
  have hlo' : (GBM.revealedRange s.paths s.step).1 ≤ ((1 : α) : WithTop α) := hlo
  have hhi' : ((1 : α) : WithBot α) ≤ (GBM.revealedRange s.paths s.step).2 := hhi
  cases h1 : (GBM.revealedRange s.paths s.step).1 with
  | top =>
    rw [h1] at hlo'
    exact absurd hlo' (by simp)
  | coe lo =>
    cases h2 : (GBM.revealedRange s.paths s.step).2 with
    | bot =>
      rw [h2] at hhi'
      exact absurd hhi' (by simp)
    | coe hi => exact ⟨lo, hi, rfl, rfl⟩

/-- C8 (amended). No division by zero in the vertical scaling, in every state reachable
by ticks and for every sample stream: for GBM, `minV` and `maxV` are finite and the
divisor `maxV - minV` of `yScale`, taken after the equal-range guard, is not 0; for OU,
the divisor `maxV - minV` of `draw` is not 0; for EF, which has no guard, the divisor
`maxRet - minRet` of `toXY` is never negative, is positive whenever two of the generated
portfolios have different returns, and is 0 exactly when all returns coincide. -/
theorem vertical_divisors (expf : α → α) (r : Rand α) :
    (∀ s : GBM.State α, GBM.Reachable expf r s →
      ∃ d : α, GBM.yScaleDivisor (GBM.revealedRange s.paths s.step).1
          (GBM.guardMax (GBM.revealedRange s.paths s.step).1
            (GBM.revealedRange s.paths s.step).2) = some d ∧ d ≠ 0) ∧
    (∀ s : OU.State α, OU.Reachable r s → OU.divisor s ≠ 0) ∧
    (∀ s : EF.State α, EF.Reachable r s →
      0 ≤ EF.toXYDivisor s ∧
      ((∃ p ∈ s.portfolios, ∃ q ∈ s.portfolios, p.ret ≠ q.ret) → 0 < EF.toXYDivisor s) ∧
      (EF.toXYDivisor s = 0 ↔ ∀ p ∈ s.portfolios, ∀ q ∈ s.portfolios, p.ret = q.ret)) := by
  refine ⟨?_, ?_, ?_⟩
  · intro s hs
    obtain ⟨lo, hi, h1, h2⟩ := gbm_reachable_range_finite expf r s hs
    rw [h1, h2]
    exact gbm_yScale_divisor_finite lo hi
  · intro s _
    exact (ou_divisor_pos s).2
  · intro s hs
    obtain ⟨hne, hmin, hmax⟩ := ef_reachable_ret_range r s hs
    have hne' : (s.portfolios.map fun p => p.ret) ≠ [] := fun h =>
      hne (List.map_eq_nil_iff.mp h)
    have hlow : ∀ p ∈ s.portfolios, s.minRet ≤ p.ret := by
      intro p hp
      rw [hmin]
      exact jsMin_le_of_mem _ _ (List.mem_map.mpr ⟨p, hp, rfl⟩)
    have hup : ∀ p ∈ s.portfolios, p.ret ≤ s.maxRet := by
      intro p hp
      rw [hmax]
      exact le_jsMax_of_mem _ _ (List.mem_map.mpr ⟨p, hp, rfl⟩)
    have hnn : 0 ≤ EF.toXYDivisor s := by
      unfold EF.toXYDivisor
      rw [hmin, hmax]
      exact sub_nonneg.mpr (jsMin_le_jsMax _)
    have hpos : (∃ p ∈ s.portfolios, ∃ q ∈ s.portfolios, p.ret ≠ q.ret) →
        0 < EF.toXYDivisor s := by
      rintro ⟨p, hp, q, hq, hpq⟩
      unfold EF.toXYDivisor
      rcases lt_or_gt_of_ne hpq with h | h
      · have := hlow p hp
        have := hup q hq
        linarith
      · have := hlow q hq
        have := hup p hp
        linarith
    refine ⟨hnn, hpos, ?_, ?_⟩
    · intro h0 p hp q hq
      by_contra hpq
      exact absurd h0 (ne_of_gt (hpos ⟨p, hp, q, hq, hpq⟩))
    · intro hall
      obtain ⟨p, hp, hpe⟩ := List.mem_map.mp (jsMin_mem _ hne')
      obtain ⟨q, hq, hqe⟩ := List.mem_map.mp (jsMax_mem _ hne')
      unfold EF.toXYDivisor
      rw [hmin, hmax, ← hpe, ← hqe, hall q hq p hp, sub_self]

end

/-- C8 (amended) at a concrete input: with the return draw of the first portfolio 0.5
and every other sample 0, the first two portfolios have returns 0.1385 and 0.0685, and
the divisor of `toXY` right after `init` is positive. -/
theorem vertical_divisors_witness :
    0 < EF.toXYDivisor (EF.init twoRetRand EF.declared) := by
  have hp : EF.genOne twoRetRand 0 0 0 ∈ (EF.init twoRetRand EF.declared).portfolios := by
    simp only [EF.init, EF.declared]
    exact (ef_mem_genPortfolios _ _ _ _).mpr ⟨0, by decide, rfl⟩
  have hq : EF.genOne twoRetRand 0 0 1 ∈ (EF.init twoRetRand EF.declared).portfolios := by
    simp only [EF.init, EF.declared]
    exact (ef_mem_genPortfolios _ _ _ _).mpr ⟨1, by decide, rfl⟩
  exact ((vertical_divisors (fun x : ℚ => 1 + x) twoRetRand).2.2 _
    (EF.Reachable.init EF.declared)).2.1
    ⟨_, hp, _, hq, by norm_num [EF.genOne, twoRetRand]⟩

end MainJs
